import Mathlib

/-! # ContexGo chronicle engine: verification development

Shallow embedding of the ContexGo chronicle ingestion/storage engine
(chronicle_gate.py, sensor_manager.py, api_client.py) together with proofs
about its data model and operations.

Conventions of the embedding:

* Python float timestamps (seconds since the epoch) are modelled as rationals.
* `datetime.fromtimestamp` is modelled in UTC via the standard civil-from-days
  Gregorian conversion; the conversion was cross-checked against Python over
  the full `datetime` year range 1..9999.  The Lean functions are total; the
  Python original raises for dates outside that range.
* Randomness (`random.getrandbits`) and the clock (`time.time`) are passed as
  explicit environment state.
* Filesystem state (blob files, per-month sqlite files) is explicit data.
-/

namespace ContexGo

/-! ## Calendar: civil-from-days pieces of the month/year computation -/

/-- year-of-era (0..399) from day-of-era (0..146096). -/
def eraYoe (doe : Nat) : Nat := (doe - doe / 1460 + doe / 36524 - doe / 146096) / 365

/-- first day-of-era of a year-of-era (valid for y in 0..399). -/
def yearStart (y : Nat) : Nat := 365 * y + y / 4 - y / 100

/-- day-of-era one past the end of a year-of-era. -/
def yearEnd (y : Nat) : Nat := if y = 399 then 146097 else yearStart (y + 1)

/-- month-position (0 = March .. 11 = February) from day-of-year. -/
def nuMp (doy : Nat) : Nat := (5 * doy + 2) / 153

/-- calendar month number (1..12) from day-of-year of a March-based year. -/
def nuM (doy : Nat) : Nat := if nuMp doy < 10 then nuMp doy + 3 else nuMp doy - 9

/-- month offset within a March-based year (March = 2, ..., February = 13). -/
def nuMonth (doy : Nat) : Nat := 12 * (if nuM doy ≤ 2 then 1 else 0) + (nuM doy - 1)

/-- month index within an era (0 era start offset .. 4801). -/
def muMonth (doe : Nat) : Nat := 12 * eraYoe doe + nuMonth (doe - yearStart (eraYoe doe))

/-- day-of-era of an integer day number (days since the epoch 1970-01-01). -/
def doeOf (z : Int) : Nat := ((z + 719468) % 146097).toNat

/-- era of an integer day number. -/
def eraOf (z : Int) : Int := (z + 719468) / 146097

/-- day-of-year (March-based) of an integer day number. -/
def doyOf (z : Int) : Nat := doeOf z - yearStart (eraYoe (doeOf z))

/-- calendar year of an integer day number, per proleptic Gregorian calendar. -/
def civilYear (z : Int) : Int :=
  400 * eraOf z + (eraYoe (doeOf z) : Int) + (if nuM (doyOf z) ≤ 2 then 1 else 0)

/-- calendar month (1..12) of an integer day number. -/
def civilMonth (z : Int) : Nat := nuM (doyOf z)

/-- day of month (1..31) of an integer day number. -/
def civilDay (z : Int) : Nat := doyOf z - (153 * nuMp (doyOf z) + 2) / 5 + 1

/-- linear month index: 12 * year + (month - 1). -/
def monthIdxOfDay (z : Int) : Int := 12 * civilYear z + (civilMonth z : Int) - 1

/-! ## Timestamps (rational seconds since the epoch) -/

/-- integer day number containing a rational timestamp; equals the floor of
t / 86400, written on the numerator and denominator so that the kernel can
evaluate it. -/
def dayOfTs (t : ℚ) : Int := t.num / (t.den * 86400 : Int)

def monthIdxOfTs (t : ℚ) : Int := monthIdxOfDay (dayOfTs t)

def civilYearOfTs (t : ℚ) : Int := civilYear (dayOfTs t)

def civilMonthOfTs (t : ℚ) : Nat := civilMonth (dayOfTs t)

def civilDayOfTs (t : ℚ) : Nat := civilDay (dayOfTs t)

/-! ## Path formatting

Paths are modelled as lists of path components (strings), relative to the
storage base directory. -/

/-- decimal digits of a natural number, most significant first (fuel-based so
that the kernel can evaluate it). -/
def decDigitsAux : Nat → Nat → List Nat
  | 0, _ => []
  | fuel + 1, n => if n < 10 then [n] else decDigitsAux fuel (n / 10) ++ [n % 10]

/-- decimal digits of a natural number, most significant first. -/
def decDigits (n : Nat) : List Nat := decDigitsAux (n + 1) n

/-- value of a decimal big-endian digit list. -/
def ofDecDigits (l : List Nat) : Nat := l.foldl (fun a d => 10 * a + d) 0

/-- decimal digit characters of a natural number, most significant first,
as produced by str / strftime formatting. -/
def decChars (n : Nat) : List Char := (decDigits n).map Nat.digitChar

/-- the year component string, strftime "%Y". -/
def yearString (y : Int) : String := String.mk (decChars y.toNat)

/-- a two-digit zero-padded string, strftime "%m" / "%d". -/
def pad2String (m : Nat) : String := String.mk [Nat.digitChar (m / 10), Nat.digitChar (m % 10)]

/-- `_resolve_month_db_path`: base / YYYY / YYYYMM.db (components relative to base). -/
def resolveMonthDbPath (ts : ℚ) : List String :=
  [yearString (civilYearOfTs ts),
    yearString (civilYearOfTs ts) ++ pad2String (civilMonthOfTs ts) ++ ".db"]

/-- the db path of a linear month index; the path the range iterator builds from
datetime(year, month, 1) for month index k (year = k / 12, month = k % 12 + 1). -/
def pathOfMonthIdx (k : Int) : List String :=
  [yearString (k / 12),
    yearString (k / 12) ++ pad2String ((k % 12).toNat + 1) ++ ".db"]

/-- `lstrip` of leading dots, with the "jpg" default for a falsy extension:
safe_ext = extension.lstrip(".") if extension else "jpg". -/
def safeExt (ext : String) : String :=
  if ext = "" then "jpg" else String.mk (ext.toList.dropWhile (fun c => c = '.'))

/-- `_resolve_blob_path`: base / YYYY / blobs / MM-DD / object_id.ext. -/
def resolveBlobPath (ts : ℚ) (objectId : String) (ext : String) : List String :=
  [yearString (civilYearOfTs ts), "blobs",
    pad2String (civilMonthOfTs ts) ++ "-" ++ pad2String (civilDayOfTs ts),
    objectId ++ "." ++ safeExt ext]

/-- str(PurePath) on a relative path: components joined by "/". -/
def pathString (p : List String) : String := String.intercalate "/" p

/-! ## uuid7 id generation (`_uuid7`) -/

/-- the packed 128-bit uuid7 integer, with the shifts and bitwise ors of the
source; ms is the millisecond clock reading, ra and rb the two getrandbits
draws (12 and 62 bits; the reductions mod 2^12 / 2^62 express the getrandbits
range contract). -/
def uuid7Int (ms ra rb : Nat) : Nat :=
  ((((ms % 2 ^ 48) <<< 80) ||| (0x7 <<< 76)) ||| ((ra % 2 ^ 12) <<< 64)) |||
    ((0x2 <<< 62) ||| (rb % 2 ^ 62))

/-- fixed-width base-16 digits, most significant first. -/
def hexDigitsFixed : Nat → Nat → List Nat
  | 0, _ => []
  | w + 1, n => hexDigitsFixed w (n / 16) ++ [n % 16]

/-- value of a base-16 big-endian digit list. -/
def ofHexDigits (l : List Nat) : Nat := l.foldl (fun a d => 16 * a + d) 0

/-- insert the canonical uuid dashes into the 32 hex characters (8-4-4-4-12). -/
def uuidDashes (cs : List Char) : List Char :=
  cs.take 8 ++ ['-'] ++ (cs.drop 8).take 4 ++ ['-'] ++ (cs.drop 12).take 4 ++
    ['-'] ++ (cs.drop 16).take 4 ++ ['-'] ++ cs.drop 20

/-- str(uuid.UUID(int = n)). -/
def uuidString (n : Nat) : String :=
  String.mk (uuidDashes ((hexDigitsFixed 32 n).map Nat.digitChar))

/-- millisecond reading int(time.time() * 1000) for a nonnegative clock. -/
def msOfNow (now : ℚ) : Int := (now.num * 1000) / (now.den : Int)

/-- `_uuid7` of a clock reading and the two random draws. -/
def uuid7String (now : ℚ) (ra rb : Nat) : String :=
  uuidString (uuid7Int (msOfNow now).toNat ra rb)

/-! ## Python value model

A dict field is either absent, present with value None, or present with a
value; `dict.get` collapses the first two to None, `in` / `setdefault`
distinguish them. -/

inductive Field (α : Type) where
  | absent
  | pynone
  | val (a : α)
deriving DecidableEq

/-- `payload.get(key)`. -/
def pyGet {α : Type} : Field α → Option α
  | .absent => none
  | .pynone => none
  | .val a => some a

/-- Python `a or b` over optional values, given a truthiness predicate on
values (None is falsy). -/
def pyOr {α : Type} (truthy : α → Bool) : Option α → Option α → Option α
  | some a, b => if truthy a then some a else b
  | none, b => b

/-- a timestamp-like Python value as seen by `_normalize_timestamp`:
a number (int or float), a datetime, a string (with its parse result:
fromisoformat first, then float), or anything else. -/
inductive PyTime where
  | num (q : ℚ)
  | dt (q : ℚ)
  | str (parsed : Option ℚ) (isEmpty : Bool)
  | other
deriving DecidableEq

/-- Python truthiness of a timestamp-like value. -/
def PyTime.truthy : PyTime → Bool
  | .num q => decide (q ≠ 0)
  | .dt _ => true
  | .str _ isEmpty => !isEmpty
  | .other => true

/-- `_normalize_timestamp` (with `now` the current clock); numbers and
datetimes yield their epoch value, strings their parse result, everything
else (including None) the current time. -/
def normalizeTimestamp (now : ℚ) : Option PyTime → ℚ
  | some (.num q) => q
  | some (.dt q) => q
  | some (.str (some q) _) => q
  | some (.str none _) => now
  | some .other => now
  | none => now

/-- a content-like Python value as seen by `_serialize_content`: a string,
a dict/list (carried as its json.dumps serialization plus emptiness), or any
other object (carried as its str() form plus truthiness). -/
inductive PyContent where
  | pystr (s : String)
  | pycoll (serialized : String) (nonempty : Bool)
  | pyother (s : String) (truthy : Bool)
deriving DecidableEq

def PyContent.truthy : PyContent → Bool
  | .pystr s => decide (s ≠ "")
  | .pycoll _ nonempty => nonempty
  | .pyother _ t => t

/-- `_serialize_content` on the joined content value (None yields ""). -/
def serializeContent : Option PyContent → String
  | none => ""
  | some (.pystr s) => s
  | some (.pycoll ser _) => ser
  | some (.pyother s _) => s

def truthyStr (s : String) : Bool := decide (s ≠ "")

/-- bytes values: truthy iff nonempty. -/
def truthyBytes (b : List Nat) : Bool := !b.isEmpty

/-- the envelope payload dict (the keys the gate reads). -/
structure Payload where
  id : Field String
  objectId : Field String
  timestamp : Field PyTime
  createTime : Field PyTime
  source : Field String
  contextType : Field String
  content : Field PyContent
  contentText : Field PyContent
  blobBytes : Field (List Nat)
  contentBytes : Field (List Nat)
  blobExt : Field String
  contentExt : Field String
deriving DecidableEq

/-- the effect environment: the clock and the stream of
(getrandbits(12), getrandbits(62)) pairs, with a cursor. -/
structure Env where
  now : ℚ
  rand : Nat → Nat × Nat
  cursor : Nat

/-- draw a fresh uuid7 string (one time reading, two getrandbits calls). -/
def Env.nextUuid (e : Env) : String × Env :=
  (uuid7String e.now (e.rand e.cursor).1 (e.rand e.cursor).2,
    { e with cursor := e.cursor + 1 })

/-- the persisted row (`ChronicleRecord`). -/
structure ChronicleRecord where
  object_id : String
  timestamp : ℚ
  source : Option String
  content : String
  blob_path : Option String
deriving DecidableEq

/-- blob sidecar filesystem: file path (components) to byte content. -/
abbrev BlobFs : Type := List (List String × List Nat)

/-- write (create or overwrite) one file. -/
def blobFsWrite (fs : BlobFs) (p : List String) (data : List Nat) : BlobFs :=
  if fs.any (fun f => f.1 = p) then
    fs.map (fun f => if f.1 = p then (p, data) else f)
  else fs ++ [(p, data)]

/-- read one file. -/
def blobFsRead (fs : BlobFs) (p : List String) : Option (List Nat) :=
  (fs.find? (fun f => f.1 = p)).map (·.2)

/-! ## ChronicleGate -/

/-- the month-partitioned relational store: db path (components, relative to
base) to the committed rows of that partition, in commit order. -/
abbrev Store : Type := List (List String × List ChronicleRecord)

def storeKeys (s : Store) : List (List String) := s.map (·.1)

def storeHas (s : Store) (p : List String) : Bool := s.any (fun e => e.1 = p)

def storeGet (s : Store) (p : List String) : List ChronicleRecord :=
  ((s.find? (fun e => e.1 = p)).map (·.2)).getD []

/-- append committed rows to one partition (table insert inside that
partition's transaction); a fresh partition file is appended at the end. -/
def storeAppend (s : Store) (p : List String) (rows : List ChronicleRecord) : Store :=
  if s.any (fun e => e.1 = p) then
    s.map (fun e => if e.1 = p then (e.1, e.2 ++ rows) else e)
  else s ++ [(p, rows)]

def allRecords (s : Store) : List ChronicleRecord := s.flatMap (·.2)

/-- gate state: the two clamped configuration values, the ingestion queue,
the queue's unfinished-task counter (what `flush` joins on), the cached
connection paths, the relational store and the blob filesystem. -/
structure GateState where
  flushInterval : ℚ
  maxBatchSize : Nat
  queue : List Payload
  unfinished : Nat
  connections : List (List String)
  store : Store
  blobs : BlobFs

/-- `ChronicleGate.__init__`: the flush interval is clamped into [1, 5]
seconds, the batch size to at least 1. -/
def mkGate (flushInterval : ℚ) (maxBatchSize : Int) : GateState :=
  { flushInterval := max 1 (min flushInterval 5)
    maxBatchSize := (max 1 maxBatchSize).toNat
    queue := []
    unfinished := 0
    connections := []
    store := []
    blobs := [] }

/-- `_prepare_payload`: assign a uuid7 id when both id and object_id keys are
absent; setdefault the timestamp key from (timestamp or create_time),
normalized. -/
def preparePayload (e : Env) (p : Payload) : Payload × Env :=
  let (p1, e1) :=
    if p.id = Field.absent ∧ p.objectId = Field.absent then
      let (u, e') := e.nextUuid
      ({ p with id := Field.val u }, e')
    else (p, e)
  let p2 :=
    if p1.timestamp = Field.absent then
      { p1 with timestamp := Field.val (PyTime.num (normalizeTimestamp e1.now
          (pyOr PyTime.truthy (pyGet p1.timestamp) (pyGet p1.createTime)))) }
    else p1
  (p2, e1)

/-- `_write_blob`: resolve the sidecar path, write the bytes, return the
path string relative to the base. -/
def writeBlob (fs : BlobFs) (timestamp : ℚ) (objectId : String) (data : List Nat)
    (extension : String) : String × BlobFs :=
  (pathString (resolveBlobPath timestamp objectId extension),
    blobFsWrite fs (resolveBlobPath timestamp objectId extension) data)

/-- `_prepare_record`: pick the id (or a fresh uuid7), normalize the
timestamp, join source and content fields, and extract binary payload bytes
to the blob store before constructing the record. -/
def prepareRecord (e : Env) (fs : BlobFs) (p : Payload) :
    ChronicleRecord × BlobFs × Env :=
  let (oid, e1) :=
    match pyOr truthyStr (pyGet p.id) (pyGet p.objectId) with
    | some s => (s, e)
    | none => e.nextUuid
  let ts := normalizeTimestamp e1.now
    (pyOr PyTime.truthy (pyGet p.timestamp) (pyGet p.createTime))
  let src := pyOr truthyStr (pyGet p.source) (pyGet p.contextType)
  let content := serializeContent (pyOr PyContent.truthy (pyGet p.content) (pyGet p.contentText))
  match pyOr truthyBytes (pyGet p.blobBytes) (pyGet p.contentBytes) with
  | some bytes =>
      let ext := (pyOr truthyStr (pyGet p.blobExt) (pyGet p.contentExt)).getD "jpg"
      let (bp, fs') := writeBlob fs ts oid bytes ext
      (⟨oid, ts, src, content, some bp⟩, fs', e1)
  | none => (⟨oid, ts, src, content, none⟩, fs, e1)

/-- `append`: prepare the payload and enqueue it (one more unfinished task);
the envelope is never dropped. -/
def gateAppend (e : Env) (g : GateState) (p : Payload) : GateState × Payload × Env :=
  let (prepared, e') := preparePayload e p
  ({ g with queue := g.queue ++ [prepared], unfinished := g.unfinished + 1 },
    prepared, e')

/-- group prepared records by month db path, preserving first-seen partition
order (dict setdefault order). -/
def groupByPath (rs : List (List String × ChronicleRecord)) :
    List (List String × List ChronicleRecord) :=
  rs.foldl (fun acc pr =>
    if acc.any (fun e => e.1 = pr.1) then
      acc.map (fun e => if e.1 = pr.1 then (e.1, e.2 ++ [pr.2]) else e)
    else acc ++ [(pr.1, [pr.2])]) []

/-- commit the grouped records partition by partition, each group one
independent transaction; a partition in the failing set raises (sqlite
error), leaving the commits already made in place. -/
def commitGroups (failing : List String → Bool) :
    Store → List (List String) → List (List String × List ChronicleRecord) →
      Store × List (List String) × Except String Unit
  | store, conns, [] => (store, conns, Except.ok ())
  | store, conns, (p, rows) :: rest =>
      let conns' := if conns.contains p then conns else conns ++ [p]
      if failing p then
        (store, conns', Except.error (pathString p))
      else
        commitGroups failing (storeAppend store p rows) conns' rest

/-- the preparation fold of `_write_batch`: one record per payload, paired
with its month db path, threading the blob filesystem and the environment. -/
def preparedPairs (e : Env) (fs : BlobFs) (batch : List Payload) :
    List (List String × ChronicleRecord) × BlobFs × Env :=
  batch.foldl
    (fun (acc : List (List String × ChronicleRecord) × BlobFs × Env) payload =>
      let (r, fs', e') := prepareRecord acc.2.2 acc.2.1 payload
      (acc.1 ++ [(resolveMonthDbPath r.timestamp, r)], fs', e'))
    ([], fs, e)

/-- commit a list of groups with no failures: append each group to its
partition in order. -/
def commitAll (store : Store) (gs : List (List String × List ChronicleRecord)) : Store :=
  gs.foldl (fun st pr => storeAppend st pr.1 pr.2) store

/-- `_write_batch`: prepare a record per payload (writing blobs as a side
effect), group by partition, then commit each group transactionally. -/
def writeBatch (failing : List String → Bool) (e : Env) (g : GateState)
    (batch : List Payload) : GateState × Env × Except String Unit :=
  let (prepared, fs, e') := preparedPairs e g.blobs batch
  let (store', conns', res) := commitGroups failing g.store g.connections (groupByPath prepared)
  ({ g with store := store', connections := conns', blobs := fs }, e', res)

/-- one writer-loop turn after the batch has been formed: try to write the
batch; in all cases (the finally) mark every item of the batch done, dropping
it from task tracking; a storage error propagates to the loop. -/
def writerStep (failing : List String → Bool) (e : Env) (g : GateState)
    (batch : List Payload) : GateState × Env × Except String Unit :=
  let (g', e', res) := writeBatch failing e g batch
  ({ g' with unfinished := g'.unfinished - batch.length }, e', res)

/-- `flush`: await the queue join; no state field is modified. -/
def gateFlush (g : GateState) : GateState := g

/-- `shutdown`: flush, stop the writer, close the cached connections. -/
def gateShutdown (g : GateState) : GateState := { g with connections := [] }

/-! ## Read paths -/

/-- the consecutive month indices from lo to hi (the while-loop over calendar
months in `_iter_db_paths_in_range`). -/
def monthSeq (lo hi : Int) : List Int :=
  if hi < lo then [] else (List.range ((hi - lo).toNat + 1)).map (fun i : Nat => lo + (i : Int))

/-- `_iter_db_paths_in_range`: the candidate month db paths from the month of
start to the month of end, keeping those that exist. -/
def iterDbPathsInRange (s : Store) (startTs endTs : ℚ) : List (List String) :=
  ((monthSeq (monthIdxOfTs startTs) (monthIdxOfTs endTs)).map pathOfMonthIdx).filter
    (fun p => storeHas s p)

/-- one partition's range query:
WHERE timestamp BETWEEN ? AND ? ORDER BY timestamp ASC. -/
def partitionRangeQuery (rows : List ChronicleRecord) (startTs endTs : ℚ) :
    List ChronicleRecord :=
  List.insertionSort (fun a b => a.timestamp ≤ b.timestamp)
    (rows.filter (fun r => startTs ≤ r.timestamp ∧ r.timestamp ≤ endTs))

/-- `_read_by_time_range_sync`: visit the in-range partitions in calendar
order, each sorted ascending by timestamp, and concatenate. -/
def readByTimeRange (s : Store) (startTs endTs : ℚ) : List ChronicleRecord :=
  (iterDbPathsInRange s startTs endTs).flatMap
    (fun p => partitionRangeQuery (storeGet s p) startTs endTs)

/-- `_iter_db_paths`: iterate the year directories (in the order the
filesystem lists them), and within each the db files sorted by name. -/
def iterDbPaths (s : Store) (yearDirs : List String) : List (List String) :=
  yearDirs.flatMap (fun y =>
    List.insertionSort (fun a b => a ≤ b)
      ((storeKeys s).filter (fun p => p.head? = some y)))

/-- one partition's point query: WHERE id = ? (first row in table order). -/
def partitionIdQuery (rows : List ChronicleRecord) (oid : String) :
    Option ChronicleRecord :=
  rows.find? (fun r => r.object_id = oid)

/-- `_read_by_id_sync`: scan the partitions in directory order, returning the
first row carrying the id, or an explicit None. -/
def readById (s : Store) (yearDirs : List String) (oid : String) :
    Option ChronicleRecord :=
  (iterDbPaths s yearDirs).foldl
    (fun acc p => match acc with
      | some r => some r
      | none => partitionIdQuery (storeGet s p) oid) none

/-- store well-formedness maintained by the write path: partitions are keyed
by the month db path of the timestamps of the rows they hold, and keys are
distinct (one file per path). -/
def storeWF (s : Store) : Prop :=
  (storeKeys s).Nodup ∧
    ∀ pr ∈ s, ∀ r ∈ pr.2, pr.1 = resolveMonthDbPath r.timestamp

/-! ## Writer-loop batch formation (timing model)

The queue contents are modelled by the arrival times of the enqueued items.
`asyncio.wait_for(queue.get(), timeout = remaining)` returns the next item if
it arrives within the remaining window, else times out; the loop then runs
`_write_batch` on what was accumulated. -/

/-- accumulate items into the current batch: count is the size so far,
deadline = start + flush interval; returns (batch size, time when the batch
closes, queue rest). -/
def accumulate (maxB : Nat) (deadline : ℚ) :
    Nat → ℚ → List ℚ → Nat × ℚ × List ℚ
  | count, now, [] =>
      if count < maxB ∧ now < deadline then (count, deadline, [])
      else (count, now, [])
  | count, now, a :: rest =>
      if count < maxB then
        if now < deadline then
          if a ≤ deadline then accumulate maxB deadline (count + 1) (max now a) rest
          else (count, deadline, a :: rest)
        else (count, now, a :: rest)
      else (count, now, a :: rest)

/-- the writer loop: pull one item (waiting for its arrival), then accumulate
greedily until the window from the first pull elapses or the batch is full;
returns the sizes of the committed batches in order. -/
def writerBatches (interval : ℚ) (maxB : Nat) : Nat → ℚ → List ℚ → List Nat
  | 0, _, _ => []
  | _ + 1, _, [] => []
  | fuel + 1, now, a :: rest =>
      let start := max now a
      let (size, now', rest') := accumulate maxB (start + interval) 1 start rest
      size :: writerBatches interval maxB fuel now' rest'

/-- the batch sizes the writer loop commits for a finite arrival schedule. -/
def writerRun (interval : ℚ) (maxB : Nat) (now : ℚ) (arrivals : List ℚ) : List Nat :=
  writerBatches interval maxB arrivals.length now arrivals

/-! ## SensorManager -/

/-- a sensor adapter honouring the adapter contract: start / stop report
success, and a successful start (stop) leaves the adapter running (stopped). -/
structure Adapter where
  running : Bool
  startOk : Bool
  stopOk : Bool
deriving DecidableEq

def Adapter.start (a : Adapter) : Adapter × Bool :=
  if a.startOk then ({ a with running := true }, true) else (a, false)

def Adapter.stop (a : Adapter) : Adapter × Bool :=
  if a.stopOk then ({ a with running := false }, true) else (a, false)

structure SensorEntry where
  sensorId : String
  sensor : Adapter
deriving DecidableEq

/-- manager state: the registry (list_sensors order) and the
desired-running set. -/
structure ManagerState where
  registry : List SensorEntry
  desired : List String
deriving DecidableEq

/-- `stop_all`: stop every running adapter (collecting the ids whose stop
failed, which are logged), then clear the desired-running set
unconditionally. -/
def stopAll (s : ManagerState) : ManagerState × List String :=
  let step := s.registry.map (fun en =>
    if en.sensor.running then
      let (a', ok) := en.sensor.stop
      ({ en with sensor := a' }, if ok then none else some en.sensorId)
    else (en, none))
  ({ registry := step.map (·.1), desired := [] },
    step.filterMap (·.2))

/-- `check_health`: for every registered sensor in the desired-running set
whose adapter is not running, attempt a restart; returns the new state, the
ids attempted, and the ids whose restart failed (logged). -/
def checkHealth (s : ManagerState) : ManagerState × List String × List String :=
  let step := s.registry.map (fun en =>
    if en.sensorId ∈ s.desired ∧ en.sensor.running = false then
      let (a', ok) := en.sensor.start
      ({ en with sensor := a' }, some (en.sensorId, ok))
    else (en, none))
  ({ registry := step.map (·.1), desired := s.desired },
    (step.filterMap (·.2)).map (·.1),
    ((step.filterMap (·.2)).filter (fun r => r.2 = false)).map (·.1))

/-- `start_all`: add every registered id to the desired set and start the
adapters that are not running. -/
def startAll (s : ManagerState) : ManagerState :=
  { registry := s.registry.map (fun en =>
      if en.sensor.running then en else { en with sensor := en.sensor.start.1 })
    desired := s.desired ++ (s.registry.map (·.sensorId)).filter (· ∉ s.desired) }

/-! ## GraphQL subscription client (`_subscribe_ws`) -/

/-- an incoming protocol message: its type tag (possibly missing), an opaque
payload token, and an operation id. -/
structure WsMsg where
  type : Option String
  payload : Option Nat
  id : Option String
deriving DecidableEq

/-- a message the client sends. -/
inductive WsOut where
  | connectionInit
  | subscribe (id : String)
  | pong
  | complete (id : String)
deriving DecidableEq

/-- outcome of the post-subscribe message loop: messages sent, payload tokens
yielded (None standing for the defaulted empty payload), and either normal
completion or a raised GraphQLClientError. -/
structure WsRun where
  sent : List WsOut
  yielded : List (Option Nat)
  result : Except String Unit

/-- the async-for message loop: ping is answered with pong; next yields;
error raises; complete breaks; every other type (including missing) is
ignored and the stream keeps being processed. -/
def wsLoop (msgs : List WsMsg) : WsRun :=
  match msgs with
  | [] => ⟨[], [], Except.ok ()⟩
  | m :: rest =>
      if m.type = some "ping" then
        let r := wsLoop rest
        ⟨WsOut.pong :: r.sent, r.yielded, r.result⟩
      else if m.type = some "next" then
        let r := wsLoop rest
        ⟨r.sent, m.payload :: r.yielded, r.result⟩
      else if m.type = some "error" then
        ⟨[], [], Except.error "GraphQLClientError"⟩
      else if m.type = some "complete" then
        ⟨[], [], Except.ok ()⟩
      else
        wsLoop rest

/-- `_await_connection_ack`: consume messages until connection_ack (returning
the rest of the stream) or connection_error (raising); every other message
type is ignored without a reply; a stream that ends first means the socket
closed during the handshake. -/
def awaitConnectionAck : List WsMsg → Except String (List WsMsg)
  | [] => Except.error "ConnectionClosed"
  | m :: rest =>
      if m.type = some "connection_ack" then Except.ok rest
      else if m.type = some "connection_error" then Except.error "GraphQLClientError"
      else awaitConnectionAck rest

/-- `_subscribe_ws`: send connection_init, run the handshake, send subscribe,
run the message loop, and finally send complete for the operation
(`_safe_complete`; on a handshake failure the loop is never entered and no
complete is sent). -/
def subscribeWs (subId : String) (incoming : List WsMsg) : WsRun :=
  match awaitConnectionAck incoming with
  | Except.error e => ⟨[WsOut.connectionInit], [], Except.error e⟩
  | Except.ok rest =>
      let r := wsLoop rest
      ⟨WsOut.connectionInit :: WsOut.subscribe subId :: r.sent ++ [WsOut.complete subId],
        r.yielded, r.result⟩

/-- bounded per-year facts checked by evaluation. -/
def yearOkAt (y : Nat) : Bool :=
  decide (eraYoe (yearStart y) = y) &&
    decide (eraYoe (yearEnd y - 1) = y) &&
    decide (yearStart y + 365 ≤ yearEnd y) &&
    decide (yearEnd y ≤ yearStart y + 366) &&
    decide (y < 399 → yearEnd y = yearStart (y + 1))

/-- bounded per-day-of-year facts checked by evaluation. -/
def nuOkAt (k : Nat) : Bool :=
  decide (1 ≤ nuM k) && decide (nuM k ≤ 12) &&
    decide (k < 365 → nuMonth k ≤ nuMonth (k + 1) ∧ nuMonth (k + 1) ≤ nuMonth k + 1)


/-! ## Theorems: calendar core -/

theorem eraYoe_step (d : Nat) (h : d < 146096) : eraYoe d ≤ eraYoe (d + 1) := by
  unfold eraYoe
  omega

theorem yearStart_mono {a b : Nat} (h : a ≤ b) : yearStart a ≤ yearStart b := by
  have h4 : a / 4 ≤ b / 4 := Nat.div_le_div_right h
  have h100 : b / 100 ≤ b / 4 := Nat.div_le_div_left (by omega) (by omega)
  have h100' : a / 100 ≤ a / 4 := Nat.div_le_div_left (by omega) (by omega)
  unfold yearStart
  omega

theorem yearStart_lt_mono {a b : Nat} (h : a < b) : yearStart a + 365 ≤ yearStart b := by
  have h4 : a / 4 ≤ b / 4 := Nat.div_le_div_right (by omega)
  have h100' : a / 100 ≤ a / 4 := Nat.div_le_div_left (by omega) (by omega)
  unfold yearStart
  omega

set_option maxHeartbeats 2000000 in
set_option maxRecDepth 4000 in
theorem yearOk : ∀ y < 400, yearOkAt y = true := by decide

theorem eraYoe_mono {a b : Nat} (hab : a ≤ b) (hb : b ≤ 146096) : eraYoe a ≤ eraYoe b := by
  induction b with
  | zero => simp_all
  | succ n ih =>
    rcases Nat.lt_or_ge a (n + 1) with h | h
    · exact le_trans (ih (by omega) (by omega)) (eraYoe_step n (by omega))
    · have : a = n + 1 := by omega
      simp [this]

theorem yearOk' {y : Nat} (h : y < 400) :
    eraYoe (yearStart y) = y ∧ eraYoe (yearEnd y - 1) = y ∧
      yearStart y + 365 ≤ yearEnd y ∧ yearEnd y ≤ yearStart y + 366 ∧
      (y < 399 → yearEnd y = yearStart (y + 1)) := by
  have := yearOk y h
  unfold yearOkAt at this
  simp only [Bool.and_eq_true, decide_eq_true_eq] at this
  tauto

theorem yearEnd_le (y : Nat) (h : y < 400) : yearEnd y ≤ 146097 := by
  unfold yearEnd
  split
  · omega
  · have h1 : yearStart (y + 1) ≤ yearStart 400 := yearStart_mono (by omega)
    have h2 : yearStart 400 = 146096 := by decide
    omega

/-- every day-of-era lies in the year interval of some year-of-era. -/
theorem year_cover (doe : Nat) (h : doe < 146097) :
    ∃ y < 400, yearStart y ≤ doe ∧ doe < yearEnd y := by
  induction doe with
  | zero =>
    refine ⟨0, by omega, by simp [yearStart], ?_⟩
    have h1 := (yearOk' (y := 0) (by omega)).2.2.1
    omega
  | succ n ih =>
    obtain ⟨y, hy, h1, h2⟩ := ih (by omega)
    rcases Nat.lt_or_ge (n + 1) (yearEnd y) with h3 | h3
    · exact ⟨y, hy, by omega, h3⟩
    · have hne : n + 1 = yearEnd y := by omega
      have hy399 : y < 399 := by
        by_contra hc
        have hy' : y = 399 := by omega
        subst hy'
        have : yearEnd 399 = 146097 := by decide
        omega
      have he := (yearOk' hy).2.2.2.2 hy399
      have h4 := (yearOk' (y := y + 1) (by omega)).2.2.1
      exact ⟨y + 1, by omega, by omega, by omega⟩

/-- `eraYoe` really is the year-of-era containing the given day-of-era. -/
theorem eraYoe_char (doe : Nat) (h : doe < 146097) :
    eraYoe doe < 400 ∧ yearStart (eraYoe doe) ≤ doe ∧ doe < yearEnd (eraYoe doe) := by
  obtain ⟨y, hy, h1, h2⟩ := year_cover doe h
  have e1 := (yearOk' hy).1
  have e2 := (yearOk' hy).2.1
  have hyeL := yearEnd_le y hy
  have hyS := (yearOk' hy).2.2.1
  have m1 : eraYoe (yearStart y) ≤ eraYoe doe := eraYoe_mono h1 (by omega)
  have m2 : eraYoe doe ≤ eraYoe (yearEnd y - 1) := eraYoe_mono (by omega) (by omega)
  rw [e1] at m1
  rw [e2] at m2
  have heq : eraYoe doe = y := by omega
  rw [heq]
  exact ⟨hy, h1, h2⟩

set_option maxHeartbeats 1000000 in
set_option maxRecDepth 4000 in
theorem nuOk : ∀ k < 366, nuOkAt k = true := by decide

theorem nuOk' {k : Nat} (h : k < 366) :
    (1 ≤ nuM k ∧ nuM k ≤ 12) ∧
      (k < 365 → nuMonth k ≤ nuMonth (k + 1) ∧ nuMonth (k + 1) ≤ nuMonth k + 1) := by
  have := nuOk k h
  unfold nuOkAt at this
  simp only [Bool.and_eq_true, decide_eq_true_eq] at this
  tauto

theorem nuVals : nuMonth 0 = 2 ∧ nuMonth 364 = 13 ∧ nuMonth 365 = 13 := by decide

theorem muMonth_step (d : Nat) (h : d < 146096) :
    muMonth d ≤ muMonth (d + 1) ∧ muMonth (d + 1) ≤ muMonth d + 1 := by
  have c1 := eraYoe_char d (by omega)
  have c2 := eraYoe_char (d + 1) (by omega)
  have hstep : eraYoe d ≤ eraYoe (d + 1) := eraYoe_step d h
  have hyl := yearOk' c1.1
  have hyl' := yearOk' c2.1
  rcases Nat.eq_or_lt_of_le hstep with heq | hlt
  · -- same year: day-of-year increments
    unfold muMonth
    rw [← heq]
    have hdoy : d + 1 - yearStart (eraYoe d) = (d - yearStart (eraYoe d)) + 1 := by
      have := c1.2.1
      omega
    rw [hdoy]
    have hbound : d - yearStart (eraYoe d) < 365 := by
      have hlt2 : d + 1 < yearEnd (eraYoe d) := by rw [heq]; exact c2.2.2
      have := hyl.2.2.2.1
      have := c1.2.1
      omega
    have hs := (nuOk' (k := d - yearStart (eraYoe d)) (by omega)).2 hbound
    omega
  · -- year rolls over
    have hy399 : eraYoe d < 399 := by
      by_contra hc
      have h399 : eraYoe d = 399 := by omega
      have hE : yearEnd (eraYoe d) = 146097 := by rw [h399]; decide
      have h2 : yearStart (eraYoe (d + 1)) ≤ d + 1 := c2.2.1
      have h3 : yearStart 399 + 365 ≤ yearStart (eraYoe (d + 1)) :=
        yearStart_lt_mono (by omega)
      have h4 : yearStart 399 = 145731 := by decide
      have := c1.2.2
      omega
    have hroll : yearEnd (eraYoe d) = yearStart (eraYoe d + 1) := hyl.2.2.2.2 hy399
    have hd1 : d + 1 = yearStart (eraYoe d + 1) := by
      have h1 : d < yearEnd (eraYoe d) := c1.2.2
      have h2 : yearStart (eraYoe (d + 1)) ≤ d + 1 := c2.2.1
      have h3 : yearStart (eraYoe d + 1) ≤ yearStart (eraYoe (d + 1)) := yearStart_mono hlt
      omega
    have hy'eq : eraYoe (d + 1) = eraYoe d + 1 := by
      by_contra hc
      have h3 : yearStart (eraYoe d + 1) + 365 ≤ yearStart (eraYoe (d + 1)) :=
        yearStart_lt_mono (by omega)
      have h2 : yearStart (eraYoe (d + 1)) ≤ d + 1 := c2.2.1
      omega
    have hlen := hyl.2.2.2.1
    have hlen2 := hyl.2.2.2.1
    unfold muMonth
    rw [hy'eq, ← hd1]
    have hnew : d + 1 - (d + 1) = 0 := by omega
    rw [hnew]
    have hold : d - yearStart (eraYoe d) = 364 ∨ d - yearStart (eraYoe d) = 365 := by
      have := c1.2.1
      have := c1.2.2
      have h4 := hyl.2.2.2.1
      have h5 := hyl.2.2.2.1
      have h6 : yearEnd (eraYoe d) ≤ yearStart (eraYoe d) + 366 := hyl.2.2.2.1
      omega
    have hnv := nuVals
    rcases hold with ho | ho <;> rw [ho] <;> omega

theorem muVals : muMonth 0 = 2 ∧ muMonth 146096 = 4801 := by decide

theorem doeOf_lt (z : Int) : doeOf z < 146097 := by
  unfold doeOf
  have h1 : (z + 719468) % 146097 < 146097 := Int.emod_lt_of_pos _ (by omega)
  have h2 : 0 ≤ (z + 719468) % 146097 := Int.emod_nonneg _ (by omega)
  omega

theorem doyOf_lt (z : Int) : doyOf z < 366 := by
  have h := eraYoe_char (doeOf z) (doeOf_lt z)
  have hyl := yearOk' h.1
  have h1 := h.2.1
  have h2 := h.2.2
  have h3 := hyl.2.2.2.1
  unfold doyOf
  omega

/-- the month index equals the within-era month count plus 4800 per era. -/
theorem monthIdxOfDay_eq_mu (z : Int) :
    monthIdxOfDay z = 4800 * eraOf z + (muMonth (doeOf z) : Int) := by
  have hnu := (nuOk' (k := doyOf z) (doyOf_lt z)).1
  unfold monthIdxOfDay civilYear civilMonth muMonth nuMonth
  unfold doyOf at hnu ⊢
  split_ifs <;> push_cast <;> omega

theorem monthIdxOfDay_step (z : Int) :
    monthIdxOfDay z ≤ monthIdxOfDay (z + 1) ∧
      monthIdxOfDay (z + 1) ≤ monthIdxOfDay z + 1 := by
  rw [monthIdxOfDay_eq_mu z, monthIdxOfDay_eq_mu (z + 1)]
  unfold eraOf doeOf
  have he : (z + 719468) % 146097 < 146097 := Int.emod_lt_of_pos _ (by omega)
  have he0 : 0 ≤ (z + 719468) % 146097 := Int.emod_nonneg _ (by omega)
  rcases lt_or_ge ((z + 719468) % 146097) 146096 with hlt | hge
  · -- same era: remainder increments
    have hd : (z + 1 + 719468) / 146097 = (z + 719468) / 146097 := by omega
    have hm : (z + 1 + 719468) % 146097 = (z + 719468) % 146097 + 1 := by omega
    rw [hd, hm]
    have hnat : ((z + 719468) % 146097 + 1).toNat = ((z + 719468) % 146097).toNat + 1 := by
      omega
    rw [hnat]
    have hs := muMonth_step ((z + 719468) % 146097).toNat (by omega)
    omega
  · -- era rollover
    have heq : (z + 719468) % 146097 = 146096 := by omega
    have hd : (z + 1 + 719468) / 146097 = (z + 719468) / 146097 + 1 := by omega
    have h2e : (z + 1 + 719468) % 146097 = 0 := by omega
    rw [hd, h2e, heq]
    have hmv := muVals
    have h1 : ((146096 : Int)).toNat = 146096 := rfl
    have h0 : ((0 : Int)).toNat = 0 := rfl
    rw [h1, h0, hmv.1, hmv.2]
    constructor <;> push_cast <;> ring_nf <;> omega

theorem monthIdxOfDay_mono : ∀ {a b : Int}, a ≤ b → monthIdxOfDay a ≤ monthIdxOfDay b := by
  intro a b h
  refine Int.le_induction (P := fun c => monthIdxOfDay a ≤ monthIdxOfDay c) ?_ ?_ b h
  · exact le_refl _
  · intro n _ ih
    exact le_trans ih (monthIdxOfDay_step n).1

theorem monthIdxOfDay_no_gap : ∀ {a b : Int}, a ≤ b →
    monthIdxOfDay b ≤ monthIdxOfDay a + (b - a) := by
  intro a b h
  refine Int.le_induction
    (P := fun c => monthIdxOfDay c ≤ monthIdxOfDay a + (c - a)) ?_ ?_ b h
  · simp
  · intro n hn ih
    have := (monthIdxOfDay_step n).2
    omega

/-- discrete intermediate value property for the month index. -/
theorem monthIdxOfDay_ivp {a b m : Int} (hab : a ≤ b)
    (h1 : monthIdxOfDay a ≤ m) (h2 : m ≤ monthIdxOfDay b) :
    ∃ z, a ≤ z ∧ z ≤ b ∧ monthIdxOfDay z = m := by
  by_contra hc
  push_neg at hc
  have key : ∀ z, a ≤ z → z ≤ b → monthIdxOfDay z ≤ m := by
    intro z hz
    refine Int.le_induction (m := a)
      (P := fun z => z ≤ b → monthIdxOfDay z ≤ m) ?_ ?_ z hz
    · intro _
      have := hc a le_rfl hab
      omega
    · intro n hn ih hnb
      have hprev : monthIdxOfDay n ≤ m := ih (by omega)
      have hstep := (monthIdxOfDay_step n).2
      have hne := hc (n + 1) (by omega) hnb
      have hne2 := hc n hn (by omega)
      omega
  have h3 := key b hab le_rfl
  have h4 := hc b hab le_rfl
  omega

/-! ## Theorems: uuid packing -/

theorem lor_disjoint_eq_add : ∀ (k x y : Nat), y < 2 ^ k → (x * 2 ^ k) ||| y = x * 2 ^ k + y := by
  intro k
  induction k with
  | zero =>
    intro x y hy
    interval_cases y
    simp
  | succ n ih =>
    intro x y hy
    have hlow : x * 2 ^ (n + 1) = 2 * (x * 2 ^ n) := by ring
    rcases Nat.even_or_odd y with he | ho
    · have hm : y % 2 = 0 := Nat.even_iff.mp he
      have hy2 : y = 2 * (y / 2) := by omega
      rw [hlow, hy2]
      have hbit := Nat.lor_bit false (x * 2 ^ n) false (y / 2)
      simp [Nat.bit] at hbit
      rw [hbit, ih x (y / 2) (by omega)]
      ring
    · have hm : y % 2 = 1 := Nat.odd_iff.mp ho
      have hy2 : y = 2 * (y / 2) + 1 := by omega
      rw [hlow, hy2]
      have hbit := Nat.lor_bit false (x * 2 ^ n) true (y / 2)
      simp [Nat.bit] at hbit
      rw [hbit, ih x (y / 2) (by omega)]
      ring

theorem uuid7Int_eq (ms ra rb : Nat) :
    uuid7Int ms ra rb =
      (ms % 2 ^ 48) * 2 ^ 80 + 7 * 2 ^ 76 + (ra % 2 ^ 12) * 2 ^ 64 +
        2 * 2 ^ 62 + rb % 2 ^ 62 := by
  unfold uuid7Int
  have hra : ra % 2 ^ 12 < 2 ^ 12 := Nat.mod_lt _ (by norm_num)
  have hrb : rb % 2 ^ 62 < 2 ^ 62 := Nat.mod_lt _ (by norm_num)
  rw [Nat.shiftLeft_eq, Nat.shiftLeft_eq, Nat.shiftLeft_eq, Nat.shiftLeft_eq]
  have h2 : (2 : Nat) * 2 ^ 62 ||| rb % 2 ^ 62 = 2 * 2 ^ 62 + rb % 2 ^ 62 :=
    lor_disjoint_eq_add 62 2 _ hrb
  have h3 : (ms % 2 ^ 48) * 2 ^ 80 ||| 7 * 2 ^ 76 =
      ((ms % 2 ^ 48) * 2 ^ 4 + 7) * 2 ^ 76 := by
    rw [lor_disjoint_eq_add 80 _ _ (by norm_num)]
    ring
  have h4 : ((ms % 2 ^ 48) * 2 ^ 4 + 7) * 2 ^ 76 ||| (ra % 2 ^ 12) * 2 ^ 64 =
      (((ms % 2 ^ 48) * 2 ^ 4 + 7) * 2 ^ 12 + ra % 2 ^ 12) * 2 ^ 64 := by
    rw [lor_disjoint_eq_add 76 _ _ (by
      have hb : (ra % 2 ^ 12) * 2 ^ 64 ≤ (2 ^ 12 - 1) * 2 ^ 64 :=
        Nat.mul_le_mul_right _ (by omega)
      omega)]
    ring
  have h5 : (((ms % 2 ^ 48) * 2 ^ 4 + 7) * 2 ^ 12 + ra % 2 ^ 12) * 2 ^ 64 |||
      (2 * 2 ^ 62 + rb % 2 ^ 62) =
      (((ms % 2 ^ 48) * 2 ^ 4 + 7) * 2 ^ 12 + ra % 2 ^ 12) * 2 ^ 64 +
        (2 * 2 ^ 62 + rb % 2 ^ 62) := by
    exact lor_disjoint_eq_add 64 _ _ (by omega)
  rw [h3, h4, h2, h5]
  ring

/-! ## Theorems: rational timestamps -/

theorem dayOfTs_bracket (t : ℚ) :
    ((dayOfTs t : ℚ)) * 86400 ≤ t ∧ t < (dayOfTs t + 1 : ℚ) * 86400 := by
  have hden : (0 : ℚ) < (t.den : ℚ) := by
    exact_mod_cast t.den_pos
  have hD : (0 : Int) < (t.den : Int) * 86400 := by
    have := t.den_pos
    positivity
  have hq := Int.ediv_add_emod t.num ((t.den : Int) * 86400)
  have hr0 := Int.emod_nonneg t.num (by omega : ((t.den : Int) * 86400) ≠ 0)
  have hrlt := Int.emod_lt_of_pos t.num hD
  have h1 : (t.den : Int) * 86400 * dayOfTs t ≤ t.num := by
    unfold dayOfTs
    linarith
  have h2 : t.num < (t.den : Int) * 86400 * (dayOfTs t + 1) := by
    unfold dayOfTs
    have hexp : (t.den : Int) * 86400 * (t.num / ((t.den : Int) * 86400) + 1) =
        (t.den : Int) * 86400 * (t.num / ((t.den : Int) * 86400)) + (t.den : Int) * 86400 := by
      ring
    rw [hexp]
    linarith
  have hnd : ((t.num : ℚ)) = t * (t.den : ℚ) := by
    rw [mul_comm]
    exact_mod_cast (Rat.den_mul_eq_num t).symm
  constructor
  · have h1q : ((t.den : ℚ)) * 86400 * (dayOfTs t : ℚ) ≤ (t.num : ℚ) := by
      exact_mod_cast h1
    rw [hnd] at h1q
    nlinarith
  · have h2q : (t.num : ℚ) < ((t.den : ℚ)) * 86400 * ((dayOfTs t : ℚ) + 1) := by
      exact_mod_cast h2
    rw [hnd] at h2q
    nlinarith

theorem dayOfTs_mono {t1 t2 : ℚ} (h : t1 ≤ t2) : dayOfTs t1 ≤ dayOfTs t2 := by
  by_contra hc
  push_neg at hc
  have hb1 := dayOfTs_bracket t1
  have hb2 := dayOfTs_bracket t2
  have hstep : dayOfTs t2 + 1 ≤ dayOfTs t1 := by omega
  have hq : ((dayOfTs t2 : ℚ) + 1) * 86400 ≤ (dayOfTs t1 : ℚ) * 86400 := by
    have : ((dayOfTs t2 : ℚ)) + 1 ≤ (dayOfTs t1 : ℚ) := by exact_mod_cast hstep
    nlinarith
  linarith [hb1.1, hb2.2]

theorem dayOfTs_intCast (z : Int) : dayOfTs ((z * 86400 : Int) : ℚ) = z := by
  unfold dayOfTs
  rw [Rat.intCast_num, Rat.intCast_den]
  simp [Int.mul_ediv_cancel z (by omega : (86400 : Int) ≠ 0)]

theorem monthIdxOfTs_mono {t1 t2 : ℚ} (h : t1 ≤ t2) :
    monthIdxOfTs t1 ≤ monthIdxOfTs t2 :=
  monthIdxOfDay_mono (dayOfTs_mono h)

/-- every month index between those of two ordered timestamps is attained by
some timestamp between them. -/
theorem monthIdxOfTs_ivp {s e : ℚ} {k : Int} (hse : s ≤ e)
    (h1 : monthIdxOfTs s ≤ k) (h2 : k ≤ monthIdxOfTs e) :
    ∃ t : ℚ, s ≤ t ∧ t ≤ e ∧ monthIdxOfTs t = k := by
  obtain ⟨z, hz1, hz2, hz3⟩ := monthIdxOfDay_ivp (dayOfTs_mono hse) h1 h2
  rcases eq_or_lt_of_le hz1 with heq | hlt1
  · exact ⟨s, le_refl s, hse, by unfold monthIdxOfTs; rw [heq]; exact hz3⟩
  rcases eq_or_lt_of_le hz2 with heq2 | hlt2
  · exact ⟨e, hse, le_refl e, by unfold monthIdxOfTs; rw [← heq2]; exact hz3⟩
  refine ⟨((z * 86400 : Int) : ℚ), ?_, ?_, ?_⟩
  · have hb := (dayOfTs_bracket s).2
    have hcast : ((dayOfTs s + 1 : Int) : ℚ) * 86400 ≤ ((z * 86400 : Int) : ℚ) := by
      push_cast
      have : ((dayOfTs s : ℚ)) + 1 ≤ (z : ℚ) := by exact_mod_cast hlt1
      nlinarith
    push_cast at hb hcast ⊢
    linarith
  · have hb := (dayOfTs_bracket e).1
    have hcast : ((z * 86400 : Int) : ℚ) ≤ ((dayOfTs e : ℚ)) * 86400 := by
      push_cast
      have : (z : ℚ) ≤ (dayOfTs e : ℚ) := by exact_mod_cast le_of_lt hlt2
      nlinarith
    push_cast at hb hcast ⊢
    linarith
  · unfold monthIdxOfTs
    rw [dayOfTs_intCast]
    exact hz3

/-! ## Theorems: month index and paths -/

theorem civilMonth_bounds (z : Int) : 1 ≤ civilMonth z ∧ civilMonth z ≤ 12 := by
  have := (nuOk' (k := doyOf z) (doyOf_lt z)).1
  unfold civilMonth
  exact this

/-- the month db path of a timestamp is the path of its month index. -/
theorem resolveMonthDbPath_eq (ts : ℚ) :
    resolveMonthDbPath ts = pathOfMonthIdx (monthIdxOfTs ts) := by
  have hm := civilMonth_bounds (dayOfTs ts)
  have hy : monthIdxOfTs ts / 12 = civilYearOfTs ts := by
    unfold monthIdxOfTs monthIdxOfDay civilYearOfTs
    omega
  have hmm : (monthIdxOfTs ts % 12).toNat + 1 = civilMonthOfTs ts := by
    unfold monthIdxOfTs monthIdxOfDay civilMonthOfTs
    omega
  unfold resolveMonthDbPath pathOfMonthIdx
  rw [hy, hmm]

/-! ## Theorems: decimal formatting is injective -/

theorem ofDecDigits_append_one (xs : List Nat) (d : Nat) :
    ofDecDigits (xs ++ [d]) = 10 * ofDecDigits xs + d := by
  unfold ofDecDigits
  rw [List.foldl_append]
  rfl

theorem ofDec_decDigitsAux : ∀ fuel n, n ≤ fuel → ofDecDigits (decDigitsAux (fuel + 1) n) = n := by
  intro fuel
  induction fuel with
  | zero =>
    intro n hn
    have h0 : n = 0 := by omega
    subst h0
    rfl
  | succ f ih =>
    intro n hn
    show ofDecDigits (decDigitsAux (f + 1 + 1) n) = n
    unfold decDigitsAux
    split
    · unfold ofDecDigits
      simp
    · have h10 : 10 ≤ n := by omega
      have := ih (n / 10) (by omega)
      rw [ofDecDigits_append_one, this]
      omega

theorem ofDec_decDigits (n : Nat) : ofDecDigits (decDigits n) = n :=
  ofDec_decDigitsAux n n (le_refl n)

theorem decDigits_inj {m n : Nat} (h : decDigits m = decDigits n) : m = n := by
  have := congrArg ofDecDigits h
  rwa [ofDec_decDigits, ofDec_decDigits] at this

theorem decDigitsAux_lt : ∀ fuel n d, d ∈ decDigitsAux fuel n → d < 10 := by
  intro fuel
  induction fuel with
  | zero => intro n d hd; simp [decDigitsAux] at hd
  | succ f ih =>
    intro n d hd
    unfold decDigitsAux at hd
    split at hd
    · simp at hd
      omega
    · simp at hd
      rcases hd with h | h
      · exact ih _ _ h
      · omega

theorem digitChar_inj_lt : ∀ a < 10, ∀ b < 10, Nat.digitChar a = Nat.digitChar b → a = b := by
  decide

theorem map_digitChar_inj : ∀ l1 l2 : List Nat, (∀ d ∈ l1, d < 10) → (∀ d ∈ l2, d < 10) →
    l1.map Nat.digitChar = l2.map Nat.digitChar → l1 = l2 := by
  intro l1
  induction l1 with
  | nil => intro l2 _ _ h; cases l2 <;> simp_all
  | cons a t ih =>
    intro l2 h1 h2 h
    cases l2 with
    | nil => simp_all
    | cons b t2 =>
      simp only [List.map_cons, List.cons.injEq] at h
      have ha : a = b := digitChar_inj_lt a (h1 a (by simp)) b (h2 b (by simp)) h.1
      have ht : t = t2 := ih t2 (fun d hd => h1 d (by simp [hd])) (fun d hd => h2 d (by simp [hd])) h.2
      rw [ha, ht]

theorem yearString_inj {y1 y2 : Int} (h1 : 0 ≤ y1) (h2 : 0 ≤ y2)
    (h : yearString y1 = yearString y2) : y1 = y2 := by
  unfold yearString decChars at h
  have hdata : (decDigits y1.toNat).map Nat.digitChar = (decDigits y2.toNat).map Nat.digitChar := by
    have := congrArg String.data h
    simpa using this
  have := decDigits_inj (map_digitChar_inj _ _
    (fun d hd => decDigitsAux_lt _ _ d hd) (fun d hd => decDigitsAux_lt _ _ d hd) hdata)
  omega

theorem pad2String_inj {m1 m2 : Nat} (h1 : m1 < 100) (h2 : m2 < 100)
    (h : pad2String m1 = pad2String m2) : m1 = m2 := by
  unfold pad2String at h
  have hdata := congrArg String.data h
  simp only [String.data] at hdata
  have hq : m1 / 10 = m2 / 10 := by
    apply digitChar_inj_lt _ (by omega) _ (by omega)
    exact (List.cons.injEq _ _ _ _ ▸ hdata).1
  have hr : m1 % 10 = m2 % 10 := by
    apply digitChar_inj_lt _ (by omega) _ (by omega)
    have := (List.cons.injEq _ _ _ _ ▸ hdata).2
    exact (List.cons.injEq _ _ _ _ ▸ this).1
  omega

theorem pathOfMonthIdx_inj {k1 k2 : Int} (h1 : 0 ≤ k1 / 12) (h2 : 0 ≤ k2 / 12)
    (h : pathOfMonthIdx k1 = pathOfMonthIdx k2) : k1 = k2 := by
  unfold pathOfMonthIdx at h
  simp only [List.cons.injEq, and_true] at h
  have hy : k1 / 12 = k2 / 12 := yearString_inj h1 h2 h.1
  have hfile := h.2
  have hdata := congrArg String.data hfile
  rw [String.data_append, String.data_append, String.data_append, String.data_append] at hdata
  rw [h.1] at hdata
  rw [List.append_assoc, List.append_assoc] at hdata
  have hcancel := List.append_cancel_left hdata
  have hpad : (pad2String ((k1 % 12).toNat + 1)).data = (pad2String ((k2 % 12).toNat + 1)).data :=
    List.append_cancel_right hcancel
  have hm1 := Int.emod_nonneg k1 (by omega : (12:Int) ≠ 0)
  have hm1b := Int.emod_lt_of_pos k1 (by omega : (0:Int) < 12)
  have hm2 := Int.emod_nonneg k2 (by omega : (12:Int) ≠ 0)
  have hm2b := Int.emod_lt_of_pos k2 (by omega : (0:Int) < 12)
  have hm : (k1 % 12).toNat + 1 = (k2 % 12).toNat + 1 := by
    apply pad2String_inj (by omega) (by omega)
    exact congrArg String.mk hpad
  omega

/-! ## Theorems: uuid string formatting -/

theorem hexDigitsFixed_length : ∀ w n, (hexDigitsFixed w n).length = w := by
  intro w
  induction w with
  | zero => intro n; rfl
  | succ k ih =>
    intro n
    unfold hexDigitsFixed
    simp [ih]

theorem ofHexDigits_append_one (xs : List Nat) (d : Nat) :
    ofHexDigits (xs ++ [d]) = 16 * ofHexDigits xs + d := by
  unfold ofHexDigits
  rw [List.foldl_append]
  rfl

theorem ofHex_hexDigitsFixed : ∀ w n, ofHexDigits (hexDigitsFixed w n) = n % 16 ^ w := by
  intro w
  induction w with
  | zero => intro n; simp [hexDigitsFixed, ofHexDigits, Nat.mod_one]
  | succ k ih =>
    intro n
    unfold hexDigitsFixed
    rw [ofHexDigits_append_one, ih]
    rw [pow_succ, mul_comm (16 ^ k) 16, Nat.mod_mul]
    ring

theorem hexDigitsFixed_lt : ∀ w n d, d ∈ hexDigitsFixed w n → d < 16 := by
  intro w
  induction w with
  | zero => intro n d hd; simp [hexDigitsFixed] at hd
  | succ k ih =>
    intro n d hd
    unfold hexDigitsFixed at hd
    simp at hd
    rcases hd with h | h
    · exact ih _ _ h
    · omega

theorem digitChar_inj_lt16 : ∀ a < 16, ∀ b < 16, Nat.digitChar a = Nat.digitChar b → a = b := by
  decide

theorem map_digitChar_inj16 : ∀ l1 l2 : List Nat, (∀ d ∈ l1, d < 16) → (∀ d ∈ l2, d < 16) →
    l1.map Nat.digitChar = l2.map Nat.digitChar → l1 = l2 := by
  intro l1
  induction l1 with
  | nil => intro l2 _ _ h; cases l2 <;> simp_all
  | cons a t ih =>
    intro l2 h1 h2 h
    cases l2 with
    | nil => simp_all
    | cons b t2 =>
      simp only [List.map_cons, List.cons.injEq] at h
      have ha : a = b := digitChar_inj_lt16 a (h1 a (by simp)) b (h2 b (by simp)) h.1
      have ht : t = t2 := ih t2 (fun d hd => h1 d (by simp [hd])) (fun d hd => h2 d (by simp [hd])) h.2
      rw [ha, ht]

theorem uuidDashes_inj {cs1 cs2 : List Char} (h1 : cs1.length = 32) (h2 : cs2.length = 32)
    (h : uuidDashes cs1 = uuidDashes cs2) : cs1 = cs2 := by
  unfold uuidDashes at h
  have e1 := List.append_inj h (by simp [h1, h2])
  have e2 := List.append_inj e1.1 (by simp [h1, h2])
  have e3 := List.append_inj e2.1 (by simp [h1, h2])
  have e4 := List.append_inj e3.1 (by simp [h1, h2])
  have e5 := List.append_inj e4.1 (by simp [h1, h2])
  have e6 := List.append_inj e5.1 (by simp [h1, h2])
  have e7 := List.append_inj e6.1 (by simp [h1, h2])
  have e8 := List.append_inj e7.1 (by simp [h1, h2])
  have t12 : cs1.take 12 = cs2.take 12 := by
    have hadd : (12 : Nat) = 8 + 4 := rfl
    rw [hadd, List.take_add, List.take_add, e8.1, e7.2]
  have t16 : cs1.take 16 = cs2.take 16 := by
    have hadd : (16 : Nat) = 12 + 4 := rfl
    rw [hadd, List.take_add, List.take_add, t12, e5.2]
  have t20 : cs1.take 20 = cs2.take 20 := by
    have hadd : (20 : Nat) = 16 + 4 := rfl
    rw [hadd, List.take_add, List.take_add, t16, e3.2]
  calc cs1 = cs1.take 20 ++ cs1.drop 20 := (List.take_append_drop 20 cs1).symm
    _ = cs2.take 20 ++ cs2.drop 20 := by rw [t20, e1.2]
    _ = cs2 := List.take_append_drop 20 cs2

theorem uuidString_inj {n1 n2 : Nat} (h1 : n1 < 2 ^ 128) (h2 : n2 < 2 ^ 128)
    (h : uuidString n1 = uuidString n2) : n1 = n2 := by
  unfold uuidString at h
  have hdata := congrArg String.data h
  simp only [String.data] at hdata
  have hlen1 : ((hexDigitsFixed 32 n1).map Nat.digitChar).length = 32 := by
    simp [hexDigitsFixed_length]
  have hlen2 : ((hexDigitsFixed 32 n2).map Nat.digitChar).length = 32 := by
    simp [hexDigitsFixed_length]
  have hmaps := uuidDashes_inj hlen1 hlen2 hdata
  have hdig := map_digitChar_inj16 _ _
    (fun d hd => hexDigitsFixed_lt _ _ d hd) (fun d hd => hexDigitsFixed_lt _ _ d hd) hmaps
  have := congrArg ofHexDigits hdig
  rw [ofHex_hexDigitsFixed, ofHex_hexDigitsFixed] at this
  have hp : (16 : Nat) ^ 32 = 2 ^ 128 := by norm_num
  rw [hp] at this
  rwa [Nat.mod_eq_of_lt h1, Nat.mod_eq_of_lt h2] at this

theorem uuid7Int_lt (ms ra rb : Nat) : uuid7Int ms ra rb < 2 ^ 128 := by
  rw [uuid7Int_eq]
  have h1 : ms % 2 ^ 48 < 2 ^ 48 := Nat.mod_lt _ (by norm_num)
  have h2 : ra % 2 ^ 12 < 2 ^ 12 := Nat.mod_lt _ (by norm_num)
  have h3 : rb % 2 ^ 62 < 2 ^ 62 := Nat.mod_lt _ (by norm_num)
  have hb : (ms % 2 ^ 48) * 2 ^ 80 ≤ (2 ^ 48 - 1) * 2 ^ 80 :=
    Nat.mul_le_mul_right _ (by omega)
  omega

/-- the packed integer is strictly increasing in the millisecond field. -/
theorem uuid7Int_time_mono {ms1 ms2 : Nat} (ra1 rb1 ra2 rb2 : Nat)
    (h1 : ms1 < 2 ^ 48) (h2 : ms2 < 2 ^ 48) (h : ms1 < ms2) :
    uuid7Int ms1 ra1 rb1 < uuid7Int ms2 ra2 rb2 := by
  rw [uuid7Int_eq, uuid7Int_eq]
  rw [Nat.mod_eq_of_lt h1, Nat.mod_eq_of_lt h2]
  have hma : ra1 % 2 ^ 12 < 2 ^ 12 := Nat.mod_lt _ (by norm_num)
  have hmb : rb1 % 2 ^ 62 < 2 ^ 62 := Nat.mod_lt _ (by norm_num)
  have hstep : (ms1 + 1) * 2 ^ 80 ≤ ms2 * 2 ^ 80 := Nat.mul_le_mul_right _ (by omega)
  omega

/-- the packed integer determines the millisecond field and both random
fields (within their bit ranges). -/
theorem uuid7Int_inj {ms1 ra1 rb1 ms2 ra2 rb2 : Nat}
    (h : uuid7Int ms1 ra1 rb1 = uuid7Int ms2 ra2 rb2) :
    ms1 % 2 ^ 48 = ms2 % 2 ^ 48 ∧ ra1 % 2 ^ 12 = ra2 % 2 ^ 12 ∧
      rb1 % 2 ^ 62 = rb2 % 2 ^ 62 := by
  rw [uuid7Int_eq, uuid7Int_eq] at h
  have a1 : ms1 % 2 ^ 48 < 2 ^ 48 := Nat.mod_lt _ (by norm_num)
  have a2 : ms2 % 2 ^ 48 < 2 ^ 48 := Nat.mod_lt _ (by norm_num)
  have b1 : ra1 % 2 ^ 12 < 2 ^ 12 := Nat.mod_lt _ (by norm_num)
  have b2 : ra2 % 2 ^ 12 < 2 ^ 12 := Nat.mod_lt _ (by norm_num)
  have c1 : rb1 % 2 ^ 62 < 2 ^ 62 := Nat.mod_lt _ (by norm_num)
  have c2 : rb2 % 2 ^ 62 < 2 ^ 62 := Nat.mod_lt _ (by norm_num)
  omega

theorem uuidString_length (n : Nat) : (uuidString n).length = 36 := by
  unfold uuidString String.length uuidDashes
  simp [hexDigitsFixed_length]

/-! ## Helper lemmas for the claims -/

theorem uuidString_ne_empty (n : Nat) : uuidString n ≠ "" := by
  intro h
  have := uuidString_length n
  rw [h] at this
  simp [String.length] at this

theorem blobFsRead_write (p : List String) (d : List Nat) :
    ∀ fs : BlobFs, blobFsRead (blobFsWrite fs p d) p = some d := by
  intro fs
  induction fs with
  | nil =>
      simp [blobFsWrite, blobFsRead, List.find?_cons_of_pos]
  | cons f t ih =>
    by_cases hf : f.1 = p
    · have hany : (f :: t).any (fun e => e.1 = p) = true := by
        simp [List.any_cons, hf]
      unfold blobFsWrite
      rw [if_pos hany]
      simp only [List.map_cons, if_pos hf]
      simp [blobFsRead, List.find?_cons_of_pos]
    · have hstep : (f :: t).any (fun e => e.1 = p) = t.any (fun e => e.1 = p) := by
        simp [List.any_cons, hf]
      by_cases hat : t.any (fun e => e.1 = p) = true
      · unfold blobFsWrite at ih ⊢
        rw [if_pos (by rw [hstep]; exact hat)]
        rw [if_pos hat] at ih
        simp only [List.map_cons, if_neg hf]
        unfold blobFsRead at ih ⊢
        rw [List.find?_cons_of_neg _ (by simpa using hf)]
        exact ih
      · unfold blobFsWrite at ih ⊢
        rw [if_neg (by rw [hstep]; exact hat)]
        rw [if_neg hat] at ih
        unfold blobFsRead at ih ⊢
        rw [List.cons_append, List.find?_cons_of_neg _ (by simpa using hf)]
        exact ih

/-! ## Claims -/

/-- C3: partition resolution is a deterministic pure function of the capture
timestamp: resolving twice yields identical paths; two timestamps of the same
calendar month resolve to the same partition path; and the path follows the
convention base / YYYY / YYYYMM.db. -/
theorem C3_partition_resolution_pure (t t1 t2 : ℚ)
    (hy : civilYearOfTs t1 = civilYearOfTs t2)
    (hm : civilMonthOfTs t1 = civilMonthOfTs t2) :
    resolveMonthDbPath t = resolveMonthDbPath t ∧
    resolveMonthDbPath t1 = resolveMonthDbPath t2 ∧
    resolveMonthDbPath t = [yearString (civilYearOfTs t),
      yearString (civilYearOfTs t) ++ pad2String (civilMonthOfTs t) ++ ".db"] := by
  refine ⟨rfl, ?_, rfl⟩
  unfold resolveMonthDbPath
  rw [hy, hm]

/-- C3 witness: two timestamps eleven days apart inside January 1970. -/
theorem C3_witness :
    civilYearOfTs 0 = civilYearOfTs 1000000 ∧
      civilMonthOfTs 0 = civilMonthOfTs 1000000 ∧
      resolveMonthDbPath 0 = resolveMonthDbPath 1000000 :=
  ⟨by decide, by decide,
    (C3_partition_resolution_pure 0 0 1000000 (by decide) (by decide)).2.1⟩

/-- C10: for every supplied flush interval the construction clamps the flush
window into [1, 5] seconds (a sub-second request becomes one second, an
in-range request passes through, an over-cap request becomes five seconds)
and the batch size to at least 1, and no gate operation changes either value
afterwards. -/
theorem C10_gate_config_clamped (fi : ℚ) (mbs : Int) (failing : List String → Bool)
    (e : Env) (g : GateState) (p : Payload) (batch : List Payload) :
    (1 ≤ (mkGate fi mbs).flushInterval ∧ (mkGate fi mbs).flushInterval ≤ 5) ∧
    1 ≤ (mkGate fi mbs).maxBatchSize ∧
    (fi < 1 → (mkGate fi mbs).flushInterval = 1) ∧
    (1 ≤ fi → fi ≤ 5 → (mkGate fi mbs).flushInterval = fi) ∧
    (5 < fi → (mkGate fi mbs).flushInterval = 5) ∧
    (gateAppend e g p).1.flushInterval = g.flushInterval ∧
    (gateAppend e g p).1.maxBatchSize = g.maxBatchSize ∧
    (writerStep failing e g batch).1.flushInterval = g.flushInterval ∧
    (writerStep failing e g batch).1.maxBatchSize = g.maxBatchSize ∧
    (gateFlush g).flushInterval = g.flushInterval ∧
    (gateFlush g).maxBatchSize = g.maxBatchSize ∧
    (gateShutdown g).flushInterval = g.flushInterval ∧
    (gateShutdown g).maxBatchSize = g.maxBatchSize := by
  refine ⟨⟨le_max_left 1 _, max_le (by norm_num) (min_le_right fi 5)⟩, ?_, ?_, ?_, ?_,
    rfl, rfl, rfl, rfl, rfl, rfl, rfl, rfl⟩
  · show 1 ≤ (max 1 mbs).toNat
    have := le_max_left 1 mbs
    omega
  · intro hsub
    show max 1 (min fi 5) = 1
    have h5 : min fi 5 = fi := min_eq_left (by linarith)
    rw [h5]
    exact max_eq_left (le_of_lt hsub)
  · intro h1 h2
    show max 1 (min fi 5) = fi
    rw [min_eq_left h2]
    exact max_eq_right h1
  · intro h5
    show max 1 (min fi 5) = 5
    rw [min_eq_right (le_of_lt h5)]
    exact max_eq_right (by norm_num)

/-- C10 witness: a gate built with a ten-second flush interval and a zero
batch size receives the five-second window and a batch size of at least one. -/
theorem C10_witness :
    (5 : ℚ) < 10 ∧ (mkGate 10 0).flushInterval = 5 ∧ 1 ≤ (mkGate 10 0).maxBatchSize :=
  ⟨by norm_num,
    (C10_gate_config_clamped 10 0 (fun _ => false) ⟨0, fun _ => (0, 0), 0⟩
      (mkGate 10 0) ⟨.absent, .absent, .absent, .absent, .absent, .absent, .absent,
        .absent, .absent, .absent, .absent, .absent⟩ []).2.2.2.2.1 (by norm_num),
    (C10_gate_config_clamped 10 0 (fun _ => false) ⟨0, fun _ => (0, 0), 0⟩
      (mkGate 10 0) ⟨.absent, .absent, .absent, .absent, .absent, .absent, .absent,
        .absent, .absent, .absent, .absent, .absent⟩ []).2.1⟩

/-- C4: an envelope appended without an id is assigned the uuid7 id built
from the clock and the random draws; that id is non-empty; the packed id
integer is strictly increasing in the millisecond field (time-ordered, not
purely random); two draws differing in clock milliseconds or random bits give
distinct id strings; a missing timestamp falls back to create_time and then
to the current clock; the envelope is always enqueued, never dropped. -/
theorem C4_id_and_time_synthesis (e : Env) (p : Payload)
    (hid : p.id = Field.absent) (hobj : p.objectId = Field.absent) :
    (preparePayload e p).1.id =
      Field.val (uuid7String e.now (e.rand e.cursor).1 (e.rand e.cursor).2) ∧
    (∀ now ra rb, uuid7String now ra rb ≠ "") ∧
    (∀ ms1 ms2 ra1 rb1 ra2 rb2 : Nat, ms1 < 2 ^ 48 → ms2 < 2 ^ 48 → ms1 < ms2 →
      uuid7Int ms1 ra1 rb1 < uuid7Int ms2 ra2 rb2) ∧
    (∀ now1 now2 : ℚ, ∀ ra1 rb1 ra2 rb2 : Nat,
      ¬((msOfNow now1).toNat % 2 ^ 48 = (msOfNow now2).toNat % 2 ^ 48 ∧
          ra1 % 2 ^ 12 = ra2 % 2 ^ 12 ∧ rb1 % 2 ^ 62 = rb2 % 2 ^ 62) →
      uuid7String now1 ra1 rb1 ≠ uuid7String now2 ra2 rb2) ∧
    (p.timestamp = Field.absent →
      (preparePayload e p).1.timestamp = Field.val (PyTime.num
        (normalizeTimestamp e.now (pyOr PyTime.truthy none (pyGet p.createTime))))) ∧
    (∀ q : ℚ, p.timestamp = Field.absent → p.createTime = Field.val (PyTime.num q) →
      q ≠ 0 → (preparePayload e p).1.timestamp = Field.val (PyTime.num q)) ∧
    (p.timestamp = Field.absent → p.createTime = Field.absent →
      (preparePayload e p).1.timestamp = Field.val (PyTime.num e.now)) ∧
    (∀ g : GateState, (gateAppend e g p).1.queue = g.queue ++ [(preparePayload e p).1]) := by
  refine ⟨?_, ?_, ?_, ?_, ?_, ?_, ?_, ?_⟩
  · simp [preparePayload, Env.nextUuid, hid, hobj]
    split <;> rfl
  · intro now ra rb
    exact uuidString_ne_empty _
  · intro ms1 ms2 ra1 rb1 ra2 rb2 h1 h2 h
    exact uuid7Int_time_mono ra1 rb1 ra2 rb2 h1 h2 h
  · intro now1 now2 ra1 rb1 ra2 rb2 hne heq
    apply hne
    have hint := uuidString_inj (uuid7Int_lt _ _ _) (uuid7Int_lt _ _ _) heq
    exact uuid7Int_inj hint
  · intro hts
    simp [preparePayload, Env.nextUuid, hid, hobj, hts, pyGet]
  · intro q hts hct hq
    simp [preparePayload, Env.nextUuid, hid, hobj, hts, hct, pyGet, pyOr,
      PyTime.truthy, hq, normalizeTimestamp]
  · intro hts hct
    simp [preparePayload, Env.nextUuid, hid, hobj, hts, hct, pyGet, pyOr,
      normalizeTimestamp]
  · intro g
    rfl

/-- C4 witness: an empty envelope appended with a zero clock and zero draws. -/
theorem C4_witness :
    (⟨.absent, .absent, .absent, .absent, .absent, .absent, .absent, .absent,
        .absent, .absent, .absent, .absent⟩ : Payload).id = Field.absent ∧
    (preparePayload ⟨0, fun _ => (0, 0), 0⟩
        ⟨.absent, .absent, .absent, .absent, .absent, .absent, .absent, .absent,
          .absent, .absent, .absent, .absent⟩).1.id =
      Field.val (uuid7String 0 0 0) :=
  ⟨rfl,
    (C4_id_and_time_synthesis ⟨0, fun _ => (0, 0), 0⟩
      ⟨.absent, .absent, .absent, .absent, .absent, .absent, .absent, .absent,
        .absent, .absent, .absent, .absent⟩ rfl rfl).1⟩

/-- C5: an envelope carrying binary payload bytes has them written to the
blob sidecar before the record is built, with blob_path the path relative to
the store root pointing at exactly those bytes; the textual content field is
computed from the content fields only (never from the binary bytes); an
envelope without binary bytes yields a null blob_path and an unchanged blob
filesystem. -/
theorem C5_blob_extraction (e : Env) (fs : BlobFs) (p : Payload) :
    (∀ bytes, pyOr truthyBytes (pyGet p.blobBytes) (pyGet p.contentBytes) = some bytes →
      (prepareRecord e fs p).1.blob_path =
        some (pathString (resolveBlobPath (prepareRecord e fs p).1.timestamp
          (prepareRecord e fs p).1.object_id
          ((pyOr truthyStr (pyGet p.blobExt) (pyGet p.contentExt)).getD "jpg"))) ∧
      blobFsRead (prepareRecord e fs p).2.1
        (resolveBlobPath (prepareRecord e fs p).1.timestamp
          (prepareRecord e fs p).1.object_id
          ((pyOr truthyStr (pyGet p.blobExt) (pyGet p.contentExt)).getD "jpg")) =
        some bytes) ∧
    (prepareRecord e fs p).1.content =
      serializeContent (pyOr PyContent.truthy (pyGet p.content) (pyGet p.contentText)) ∧
    (pyOr truthyBytes (pyGet p.blobBytes) (pyGet p.contentBytes) = none →
      (prepareRecord e fs p).1.blob_path = none ∧ (prepareRecord e fs p).2.1 = fs) := by
  refine ⟨?_, ?_, ?_⟩
  · intro bytes hb
    unfold prepareRecord
    rw [hb]
    simp only [writeBlob]
    exact ⟨trivial, blobFsRead_write _ _ _⟩
  · unfold prepareRecord
    rcases pyOr truthyBytes (pyGet p.blobBytes) (pyGet p.contentBytes) with _ | b <;> rfl
  · intro hb
    unfold prepareRecord
    rw [hb]
    exact ⟨rfl, rfl⟩

/-- C5 witness: an envelope with one byte of binary payload, and one
without. -/
theorem C5_witness :
    pyOr truthyBytes (pyGet (⟨.absent, .absent, .absent, .absent, .absent, .absent,
        .absent, .absent, .val [7], .absent, .absent, .absent⟩ : Payload).blobBytes)
      (pyGet (⟨.absent, .absent, .absent, .absent, .absent, .absent,
        .absent, .absent, .val [7], .absent, .absent, .absent⟩ : Payload).contentBytes) =
      some [7] ∧
    blobFsRead (prepareRecord ⟨0, fun _ => (0, 0), 0⟩ []
        ⟨.absent, .absent, .absent, .absent, .absent, .absent,
          .absent, .absent, .val [7], .absent, .absent, .absent⟩).2.1
      (resolveBlobPath (prepareRecord ⟨0, fun _ => (0, 0), 0⟩ []
          ⟨.absent, .absent, .absent, .absent, .absent, .absent,
            .absent, .absent, .val [7], .absent, .absent, .absent⟩).1.timestamp
        (prepareRecord ⟨0, fun _ => (0, 0), 0⟩ []
          ⟨.absent, .absent, .absent, .absent, .absent, .absent,
            .absent, .absent, .val [7], .absent, .absent, .absent⟩).1.object_id
        "jpg") = some [7] := by
  refine ⟨by decide, ?_⟩
  have h := (C5_blob_extraction ⟨0, fun _ => (0, 0), 0⟩ []
    ⟨.absent, .absent, .absent, .absent, .absent, .absent,
      .absent, .absent, .val [7], .absent, .absent, .absent⟩).1 [7] (by decide)
  exact h.2

/-- C9 counterexample: a ping received during the connection handshake gets
no pong reply, refuting the claim for every received ping; the client sends
only connection_init, subscribe and the final complete. -/
theorem C9_counterexample_ping_in_handshake :
    (subscribeWs "op1" [⟨some "ping", none, none⟩, ⟨some "connection_ack", none, none⟩]).sent
      = [WsOut.connectionInit, WsOut.subscribe "op1", WsOut.complete "op1"] := by
  decide

/-- C9 amended: a message whose type lies outside the protocol set is ignored
and processing continues, both in the streaming loop and in the handshake
(the loop result is that of the remaining stream, so the client neither
crashes nor raises); and every ping received in the streaming loop (after
connection_ack) is answered with a pong. -/
theorem C9_subscription_message_handling (m : WsMsg) (rest : List WsMsg)
    (pl : Option Nat) (oid : Option String)
    (hunknown : m.type ∉ [some "connection_ack", some "connection_error",
      some "ping", some "pong", some "next", some "error", some "complete"]) :
    wsLoop (m :: rest) = wsLoop rest ∧
    awaitConnectionAck (m :: rest) = awaitConnectionAck rest ∧
    wsLoop (⟨some "ping", pl, oid⟩ :: rest) =
      ⟨WsOut.pong :: (wsLoop rest).sent, (wsLoop rest).yielded, (wsLoop rest).result⟩ := by
  have h1 : m.type ≠ some "ping" := fun h => hunknown (by simp [h])
  have h2 : m.type ≠ some "next" := fun h => hunknown (by simp [h])
  have h3 : m.type ≠ some "error" := fun h => hunknown (by simp [h])
  have h4 : m.type ≠ some "complete" := fun h => hunknown (by simp [h])
  have h5 : m.type ≠ some "connection_ack" := fun h => hunknown (by simp [h])
  have h6 : m.type ≠ some "connection_error" := fun h => hunknown (by simp [h])
  refine ⟨?_, ?_, ?_⟩
  · conv_lhs => rw [wsLoop]
    simp [h1, h2, h3, h4]
  · conv_lhs => rw [awaitConnectionAck]
    simp [h5, h6]
  · rw [wsLoop]
    simp

/-- C9 witness: a message of unknown type "bogus" is skipped by both loops,
and a ping in the streaming loop is answered. -/
theorem C9_handling_witness :
    ((⟨some "bogus", none, none⟩ : WsMsg).type ∉ [some "connection_ack",
      some "connection_error", some "ping", some "pong", some "next",
      some "error", some "complete"]) ∧
    wsLoop [⟨some "bogus", none, none⟩] = wsLoop [] ∧
    wsLoop [⟨some "ping", none, none⟩] =
      ⟨[WsOut.pong], (wsLoop []).yielded, (wsLoop []).result⟩ := by
  refine ⟨by decide, ?_, ?_⟩
  · exact (C9_subscription_message_handling ⟨some "bogus", none, none⟩ [] none none
      (by decide)).1
  · have h := (C9_subscription_message_handling ⟨some "bogus", none, none⟩ [] none none
      (by decide)).2.2
    simpa using h

theorem checkHealth_attempts (reg : List SensorEntry) (des : List String) :
    (checkHealth ⟨reg, des⟩).2.1 =
      (reg.filter (fun en => decide (en.sensorId ∈ des) && !en.sensor.running)).map
        (·.sensorId) := by
  induction reg with
  | nil => rfl
  | cons en t ih =>
    unfold checkHealth at ih ⊢
    by_cases hc : en.sensorId ∈ des ∧ en.sensor.running = false
    · simp only [List.map_cons, if_pos hc, List.filterMap_cons, List.filter_cons]
      have hd : (decide (en.sensorId ∈ des) && !en.sensor.running) = true := by
        simp [hc.1, hc.2]
      rw [hd]
      simp only [List.map_cons]
      simpa using ih
    · simp only [List.map_cons, if_neg hc, List.filterMap_cons, List.filter_cons]
      have hd : (decide (en.sensorId ∈ des) && !en.sensor.running) = false := by
        by_cases hrb : en.sensor.running = false
        · have hnd : en.sensorId ∉ des := fun hmem => hc ⟨hmem, hrb⟩
          simp [hnd]
        · have hrt : en.sensor.running = true := by
            revert hrb
            cases en.sensor.running <;> simp
          simp [hrt]
      rw [hd]
      simpa using ih

theorem checkHealth_registry (reg : List SensorEntry) (des : List String) :
    (checkHealth ⟨reg, des⟩).1.registry =
      reg.map (fun en =>
        if en.sensorId ∈ des ∧ en.sensor.running = false
        then { en with sensor := en.sensor.start.1 } else en) := by
  unfold checkHealth
  induction reg with
  | nil => rfl
  | cons en t ih =>
    by_cases hc : en.sensorId ∈ des ∧ en.sensor.running = false
    · simp only [List.map_cons, if_pos hc]
      simpa using ih
    · simp only [List.map_cons, if_neg hc]
      simpa using ih

theorem checkHealth_desired_nil (reg : List SensorEntry) :
    (checkHealth ⟨reg, []⟩).1 = ⟨reg, []⟩ ∧ (checkHealth ⟨reg, []⟩).2.1 = [] := by
  unfold checkHealth
  simp only [List.not_mem_nil, false_and, if_false, List.map_map, List.filterMap_map,
    Function.comp_def]
  constructor
  · show ManagerState.mk (reg.map (fun en => en)) [] = ManagerState.mk reg []
    rw [List.map_id']
  · show ((reg.filterMap (fun _ : SensorEntry => (none : Option (String × Bool)))).map
      (fun x : String × Bool => x.1)) = []
    have hnil : reg.filterMap (fun _ : SensorEntry => (none : Option (String × Bool))) = [] := by
      induction reg with
      | nil => rfl
      | cons a t ih => simp [List.filterMap, ih]
    rw [hnil]
    rfl

/-- C6: stop_all clears the desired-running set unconditionally (stop
failures included); after it, a health check attempts no restart and changes
nothing until a sensor is re-added; a health check attempts a restart exactly
for the registered ids that are desired but not running; and one successful
restart brings such a sensor back to running. -/
theorem C6_stop_all_and_health (s : ManagerState) :
    (stopAll s).1.desired = [] ∧
    (checkHealth (stopAll s).1).2.1 = [] ∧
    (checkHealth (stopAll s).1).1 = (stopAll s).1 ∧
    (checkHealth s).2.1 =
      (s.registry.filter (fun en =>
        decide (en.sensorId ∈ s.desired) && !en.sensor.running)).map (·.sensorId) ∧
    (∀ en ∈ s.registry, en.sensorId ∈ s.desired → en.sensor.running = false →
      en.sensor.startOk = true →
      { en with sensor := { en.sensor with running := true } } ∈
        (checkHealth s).1.registry) := by
  have hs0 : (stopAll s).1 = ⟨(stopAll s).1.registry, []⟩ := rfl
  refine ⟨rfl, ?_, ?_, ?_, ?_⟩
  · rw [hs0]
    exact (checkHealth_desired_nil (stopAll s).1.registry).2
  · rw [hs0]
    exact (checkHealth_desired_nil (stopAll s).1.registry).1
  · rcases s with ⟨reg, des⟩
    exact checkHealth_attempts reg des
  · intro en hen hdes hrun hok
    rcases s with ⟨reg, des⟩
    rw [checkHealth_registry reg des]
    refine List.mem_map.mpr ⟨en, hen, ?_⟩
    show (if en.sensorId ∈ des ∧ en.sensor.running = false
      then { en with sensor := en.sensor.start.1 } else en) =
      { en with sensor := { en.sensor with running := true } }
    rw [if_pos ⟨hdes, hrun⟩]
    unfold Adapter.start
    rw [if_pos hok]

/-- C6 witness: stop_all on a running sensor whose stop fails still clears
the desired set; a desired, stopped sensor with a working start is restarted
to running by one health check. -/
theorem C6_witness :
    (stopAll ⟨[⟨"a", ⟨true, true, false⟩⟩], ["a"]⟩).1.desired = [] ∧
    (⟨"b", ⟨false, true, true⟩⟩ : SensorEntry) ∈
      ([⟨"b", ⟨false, true, true⟩⟩] : List SensorEntry) ∧
    (⟨"b", ⟨true, true, true⟩⟩ : SensorEntry) ∈
      (checkHealth ⟨[⟨"b", ⟨false, true, true⟩⟩], ["b"]⟩).1.registry := by
  refine ⟨(C6_stop_all_and_health ⟨[⟨"a", ⟨true, true, false⟩⟩], ["a"]⟩).1,
    by decide, ?_⟩
  exact (C6_stop_all_and_health ⟨[⟨"b", ⟨false, true, true⟩⟩], ["b"]⟩).2.2.2.2
    ⟨"b", ⟨false, true, true⟩⟩ (by decide) (by decide) rfl rfl

theorem accumulate_size_le (m : Nat) (dl : ℚ) :
    ∀ pend count now, count ≤ m → (accumulate m dl count now pend).1 ≤ m := by
  intro pend
  induction pend with
  | nil =>
    intro count now h
    unfold accumulate
    split <;> exact h
  | cons a rest ih =>
    intro count now h
    unfold accumulate
    split_ifs with h1 h2 h3
    · exact ih (count + 1) (max now a) (by omega)
    · exact h
    · exact h
    · exact h

theorem writerBatches_size_le (i : ℚ) (m : Nat) :
    ∀ fuel now arr sz, sz ∈ writerBatches i m fuel now arr → sz ≤ m ∨ sz = 1 := by
  intro fuel
  induction fuel with
  | zero => intro now arr sz h; simp [writerBatches] at h
  | succ f ih =>
    intro now arr sz h
    match arr with
    | [] => simp [writerBatches] at h
    | a :: rest =>
      rw [writerBatches] at h
      rcases List.mem_cons.mp h with heq | hmem
      · by_cases hm : 1 ≤ m
        · left
          rw [heq]
          exact accumulate_size_le m _ rest 1 (max now a) hm
        · right
          have hm0 : m = 0 := by omega
          subst hm0
          rw [heq]
          rcases rest with _ | ⟨b, r⟩
          · simp [accumulate]
          · simp [accumulate]
      · exact ih _ _ _ hmem

theorem accumulate_all (m : Nat) (dl bound : ℚ) (hbd : bound < dl) :
    ∀ pend count now, (∀ a ∈ pend, a ≤ bound) → now ≤ bound → count ≤ m →
      (accumulate m dl count now pend).1 = min m (count + pend.length) ∧
      (accumulate m dl count now pend).2.2 = pend.drop (m - count) ∧
      now ≤ (accumulate m dl count now pend).2.1 ∧
      (m < count + pend.length → (accumulate m dl count now pend).2.1 ≤ bound) := by
  intro pend
  induction pend with
  | nil =>
    intro count now hb hn hc
    unfold accumulate
    by_cases h : count < m ∧ now < dl
    · rw [if_pos h]
      refine ⟨by simp; omega, by simp, le_of_lt (lt_of_le_of_lt hn hbd), ?_⟩
      intro hgt
      simp at hgt
      omega
    · rw [if_neg h]
      have hceq : count = m := by
        rcases not_and_or.mp h with h1 | h2
        · omega
        · exact absurd (lt_of_le_of_lt hn hbd) h2
      exact ⟨by simp; omega, by simp, le_refl now, fun _ => hn⟩
  | cons a rest ih =>
    intro count now hb hn hc
    unfold accumulate
    by_cases hcm : count < m
    · rw [if_pos hcm, if_pos (lt_of_le_of_lt hn hbd),
        if_pos (le_of_lt (lt_of_le_of_lt (hb a (List.mem_cons_self a rest)) hbd))]
      have hmax : max now a ≤ bound := max_le hn (hb a (List.mem_cons_self a rest))
      obtain ⟨s1, s2, s3, s4⟩ := ih (count + 1) (max now a)
        (fun x hx => hb x (List.mem_cons_of_mem _ hx)) hmax (by omega)
      refine ⟨?_, ?_, ?_, ?_⟩
      · rw [s1]
        simp only [List.length_cons]
        omega
      · rw [s2]
        rw [show m - count = (m - (count + 1)) + 1 from by omega, List.drop_succ_cons]
      · exact le_trans (le_max_left now a) s3
      · intro hgt
        apply s4
        simp only [List.length_cons] at hgt
        omega
    · rw [if_neg hcm]
      have hceq : count = m := by omega
      refine ⟨?_, ?_, le_refl now, fun _ => hn⟩
      · simp only [List.length_cons]
        omega
      · rw [show m - count = 0 from by omega, List.drop_zero]

theorem writerBatches_cons (i : ℚ) (m fuel : Nat) (now a : ℚ) (rest : List ℚ) :
    writerBatches i m (fuel + 1) now (a :: rest) =
      (accumulate m (max now a + i) 1 (max now a) rest).1 ::
        writerBatches i m fuel (accumulate m (max now a + i) 1 (max now a) rest).2.1
          (accumulate m (max now a + i) 1 (max now a) rest).2.2 := rfl

theorem writerBatches_nil_queue (i : ℚ) (m fuel : Nat) (now : ℚ) :
    writerBatches i m (fuel + 1) now [] = [] := rfl

/-- C7: the writer forms a batch from one pulled envelope plus greedy
accumulation bounded by the window from the first arrival and the batch cap,
so no committed batch ever exceeds the (clamped, hence positive) cap; and 250
envelopes all enqueued within 50 ms of the first, window 2 s, cap 200, give
exactly two batches of sizes 200 and then 50. -/
theorem C7_batch_formation (now0 a0 : ℚ) (rest : List ℚ)
    (hlen : rest.length = 249)
    (hwithin : ∀ a ∈ rest, a ≤ a0 + 1 / 20)
    (hnow : now0 ≤ a0) :
    (∀ (i : ℚ) (m fuel : Nat) (now : ℚ) (arr : List ℚ) (sz : Nat),
      1 ≤ m → sz ∈ writerBatches i m fuel now arr → sz ≤ m) ∧
    writerRun 2 200 now0 (a0 :: rest) = [200, 50] := by
  constructor
  · intro i m fuel now arr sz hm h
    rcases writerBatches_size_le i m fuel now arr sz h with hle | h1
    · exact hle
    · omega
  · unfold writerRun
    rw [show (a0 :: rest).length = 249 + 1 from by simp [hlen]]
    rw [writerBatches_cons]
    rw [max_eq_right hnow]
    have hbd : a0 + 1 / 20 < a0 + 2 := by linarith
    obtain ⟨s1, s2, s3, s4⟩ := accumulate_all 200 (a0 + 2) (a0 + 1 / 20) hbd rest 1 a0
      hwithin (by linarith) (by omega)
    rw [s1, s2, hlen]
    have hmin : min 200 (1 + 249) = 200 := by norm_num
    rw [hmin]
    have hlen2 : (rest.drop (200 - 1)).length = 50 := by
      rw [List.length_drop, hlen]
    have hne : rest.drop (200 - 1) ≠ [] := by
      intro h
      rw [h] at hlen2
      simp at hlen2
    obtain ⟨b, rest2, hcons⟩ := List.exists_cons_of_ne_nil hne
    have hnow' := s4 (by rw [hlen]; omega)
    have hbmem : ∀ x ∈ rest.drop (200 - 1), x ≤ a0 + 1 / 20 := by
      intro x hx
      exact hwithin x (List.mem_of_mem_drop hx)
    rw [hcons]
    rw [show (249 : Nat) = 248 + 1 from rfl, writerBatches_cons]
    have hbb : b ≤ a0 + 1 / 20 := hbmem b (by rw [hcons]; exact List.mem_cons_self b rest2)
    have hstart2 : max (accumulate 200 (a0 + 2) 1 a0 rest).2.1 b ≤ a0 + 1 / 20 :=
      max_le hnow' hbb
    have hstart2lo : a0 ≤ max (accumulate 200 (a0 + 2) 1 a0 rest).2.1 b :=
      le_trans s3 (le_max_left _ _)
    have hbd2 : a0 + 1 / 20 < max (accumulate 200 (a0 + 2) 1 a0 rest).2.1 b + 2 := by
      linarith
    have hmem2 : ∀ x ∈ rest2, x ≤ a0 + 1 / 20 := by
      intro x hx
      exact hbmem x (by rw [hcons]; exact List.mem_cons_of_mem _ hx)
    obtain ⟨t1, t2, t3, t4⟩ := accumulate_all 200
      (max (accumulate 200 (a0 + 2) 1 a0 rest).2.1 b + 2) (a0 + 1 / 20) hbd2 rest2 1
      (max (accumulate 200 (a0 + 2) 1 a0 rest).2.1 b) hmem2 hstart2 (by omega)
    have hlen3 : rest2.length = 49 := by
      have : (b :: rest2).length = 50 := by rw [← hcons]; exact hlen2
      simpa using this
    rw [t1, t2, hlen3]
    have hmin2 : min 200 (1 + 49) = 50 := by norm_num
    rw [hmin2]
    have hdropnil : rest2.drop (200 - 1) = [] := by
      apply List.drop_eq_nil_of_le
      omega
    rw [hdropnil]
    rw [show (248 : Nat) = 247 + 1 from rfl, writerBatches_nil_queue]

/-- C7 witness: 250 simultaneous arrivals, cap 200, window 2 s. -/
theorem C7_witness :
    (List.replicate 249 (0 : ℚ)).length = 249 ∧
      writerRun 2 200 0 ((0 : ℚ) :: List.replicate 249 0) = [200, 50] :=
  ⟨List.length_replicate 249 0,
    (C7_batch_formation 0 0 (List.replicate 249 0) (List.length_replicate 249 0)
      (fun a ha => by rw [List.eq_of_mem_replicate ha]; norm_num) (le_refl 0)).2⟩

/-! ## C1: batch commit failure semantics -/

theorem commitGroups_ok (failing : List String → Bool) :
    ∀ gs store conns, (∀ pr ∈ gs, failing pr.1 = false) →
      (commitGroups failing store conns gs).1 = commitAll store gs ∧
      (commitGroups failing store conns gs).2.2 = Except.ok () := by
  intro gs
  induction gs with
  | nil => intro store conns h; exact ⟨rfl, rfl⟩
  | cons pr rest ih =>
    intro store conns h
    rcases pr with ⟨p, rows⟩
    rw [commitGroups]
    rw [if_neg (by rw [h (p, rows) (List.mem_cons_self _ _)]; simp)]
    exact ih (storeAppend store p rows) _ (fun q hq => h q (List.mem_cons_of_mem _ hq))

theorem commitGroups_split (failing : List String → Bool) :
    ∀ gs1 p rows gs2 store conns, (∀ pr ∈ gs1, failing pr.1 = false) → failing p = true →
      (commitGroups failing store conns (gs1 ++ (p, rows) :: gs2)).1 = commitAll store gs1 ∧
      (commitGroups failing store conns (gs1 ++ (p, rows) :: gs2)).2.2 =
        Except.error (pathString p) := by
  intro gs1
  induction gs1 with
  | nil =>
    intro p rows gs2 store conns _ hfail
    rw [List.nil_append, commitGroups]
    rw [if_pos hfail]
    exact ⟨rfl, rfl⟩
  | cons pr rest ih =>
    intro p rows gs2 store conns h hfail
    rcases pr with ⟨q, qrows⟩
    rw [List.cons_append, commitGroups]
    rw [if_neg (by rw [h (q, qrows) (List.mem_cons_self _ _)]; simp)]
    exact ih p rows gs2 (storeAppend store q qrows) _
      (fun r hr => h r (List.mem_cons_of_mem _ hr)) hfail

theorem writeBatch_def (failing : List String → Bool) (e : Env) (g : GateState)
    (batch : List Payload) :
    writeBatch failing e g batch =
      ({ g with
          store := (commitGroups failing g.store g.connections
            (groupByPath (preparedPairs e g.blobs batch).1)).1
          connections := (commitGroups failing g.store g.connections
            (groupByPath (preparedPairs e g.blobs batch).1)).2.1
          blobs := (preparedPairs e g.blobs batch).2.1 },
        (preparedPairs e g.blobs batch).2.2,
        (commitGroups failing g.store g.connections
          (groupByPath (preparedPairs e g.blobs batch).1)).2.2) := rfl

/-- C1: when a partition commit fails mid-batch, the error is surfaced to the
writer loop (not swallowed); the partitions of the same batch committed
before the failure keep their transactions (they are not undone), the failing
partition and the ones after it are not committed; all items of the batch are
marked done exactly at this abandonment (the finally clause), so the queue
does not hold them pending forever; and a batch with no failing partition
commits in full with an ok result. -/
theorem C1_commit_failure_semantics (failing : List String → Bool) (e : Env)
    (g : GateState) (batch : List Payload)
    (gs1 gs2 : List (List String × List ChronicleRecord))
    (p : List String) (rows : List ChronicleRecord)
    (hsplit : groupByPath (preparedPairs e g.blobs batch).1 = gs1 ++ (p, rows) :: gs2)
    (hok : ∀ pr ∈ gs1, failing pr.1 = false) (hfail : failing p = true) :
    (writerStep failing e g batch).2.2 = Except.error (pathString p) ∧
    (writerStep failing e g batch).1.store = commitAll g.store gs1 ∧
    (writerStep failing e g batch).1.unfinished = g.unfinished - batch.length ∧
    (∀ failing2 : List String → Bool,
      (∀ pr ∈ groupByPath (preparedPairs e g.blobs batch).1, failing2 pr.1 = false) →
      (writerStep failing2 e g batch).2.2 = Except.ok () ∧
      (writerStep failing2 e g batch).1.store =
        commitAll g.store (groupByPath (preparedPairs e g.blobs batch).1)) := by
  have hw := commitGroups_split failing gs1 p rows gs2 g.store g.connections hok hfail
  refine ⟨?_, ?_, rfl, ?_⟩
  · show (writeBatch failing e g batch).2.2 = Except.error (pathString p)
    rw [writeBatch_def, hsplit]
    exact hw.2
  · show (writeBatch failing e g batch).1.store = commitAll g.store gs1
    rw [writeBatch_def, hsplit]
    exact hw.1
  · intro failing2 hok2
    have hw2 := commitGroups_ok failing2 (groupByPath (preparedPairs e g.blobs batch).1)
      g.store g.connections hok2
    constructor
    · show (writeBatch failing2 e g batch).2.2 = Except.ok ()
      rw [writeBatch_def]
      exact hw2.2
    · show (writeBatch failing2 e g batch).1.store =
        commitAll g.store (groupByPath (preparedPairs e g.blobs batch).1)
      rw [writeBatch_def]
      exact hw2.1

/-- C1 witness: a one-envelope batch whose only partition (January 1970) is
failing: the error is surfaced. -/
theorem C1_witness :
    groupByPath (preparedPairs ⟨0, fun _ => (0, 0), 0⟩ (mkGate 2 200).blobs
        [⟨.val "x", .absent, .val (.num 0), .absent, .absent, .absent, .absent, .absent,
          .absent, .absent, .absent, .absent⟩]).1 =
      [] ++ (["1970", "197001.db"], [⟨"x", 0, none, "", none⟩]) :: [] ∧
    (writerStep (fun p => decide (p = ["1970", "197001.db"])) ⟨0, fun _ => (0, 0), 0⟩
        (mkGate 2 200)
        [⟨.val "x", .absent, .val (.num 0), .absent, .absent, .absent, .absent, .absent,
          .absent, .absent, .absent, .absent⟩]).2.2 =
      Except.error (pathString ["1970", "197001.db"]) := by
  refine ⟨by decide, ?_⟩
  exact (C1_commit_failure_semantics (fun p => decide (p = ["1970", "197001.db"]))
    ⟨0, fun _ => (0, 0), 0⟩ (mkGate 2 200)
    [⟨.val "x", .absent, .val (.num 0), .absent, .absent, .absent, .absent, .absent,
      .absent, .absent, .absent, .absent⟩]
    [] [] ["1970", "197001.db"] [⟨"x", 0, none, "", none⟩]
    (by decide) (by simp) (by decide)).1

/-! ## C8: point reads -/

theorem storeGet_of_mem {s : Store} (hnd : (storeKeys s).Nodup)
    {p : List String} {rows : List ChronicleRecord} (h : (p, rows) ∈ s) :
    storeGet s p = rows := by
  induction s with
  | nil => simp at h
  | cons en t ih =>
    rcases List.mem_cons.mp h with heq | hmem
    · rw [← heq]
      simp [storeGet, List.find?_cons_of_pos]
    · have hnd' : (en.1 :: storeKeys t).Nodup := hnd
      have hne : en.1 ≠ p := by
        intro he
        have hkeys : p ∈ storeKeys t := by
          have hm : (p, rows).1 ∈ List.map (fun x => x.1) t :=
            List.mem_map_of_mem (fun x => x.1) hmem
          simpa [storeKeys] using hm
        have hno := (List.nodup_cons.mp hnd').1
        rw [he] at hno
        exact hno hkeys
      unfold storeGet at ih ⊢
      rw [List.find?_cons_of_neg _ (by simpa using hne)]
      exact ih (List.nodup_cons.mp hnd').2 hmem

theorem mem_allRecords_of_entry {s : Store} {en : List String × List ChronicleRecord}
    {r : ChronicleRecord} (hen : en ∈ s) (hr : r ∈ en.2) : r ∈ allRecords s := by
  unfold allRecords
  exact List.mem_flatMap.mpr ⟨en, hen, hr⟩

theorem iterDbPaths_mem (s : Store) (yearDirs : List String)
    (hcov : ∀ p ∈ storeKeys s, ∃ y ∈ yearDirs, p.head? = some y) :
    ∀ p, p ∈ iterDbPaths s yearDirs ↔ p ∈ storeKeys s := by
  intro p
  unfold iterDbPaths
  rw [List.mem_flatMap]
  constructor
  · rintro ⟨y, _, hp⟩
    have := (List.perm_insertionSort (fun a b => a ≤ b) _).mem_iff.mp hp
    exact (List.mem_filter.mp this).1
  · intro hp
    obtain ⟨y, hy, hhead⟩ := hcov p hp
    refine ⟨y, hy, ?_⟩
    rw [(List.perm_insertionSort (fun a b => a ≤ b) _).mem_iff]
    exact List.mem_filter.mpr ⟨hp, by simp [hhead]⟩

theorem iterDbPaths_nodup (s : Store) (yearDirs : List String)
    (hnd : (storeKeys s).Nodup) (hyd : yearDirs.Nodup) :
    (iterDbPaths s yearDirs).Nodup := by
  unfold iterDbPaths
  induction yearDirs with
  | nil => simp
  | cons y t ih =>
    rw [List.flatMap_cons]
    have h1 : (List.insertionSort (fun a b => a ≤ b)
        ((storeKeys s).filter (fun p => p.head? = some y))).Nodup :=
      ((List.perm_insertionSort _ _).nodup_iff).mpr (hnd.filter _)
    have h2 := ih (List.nodup_cons.mp hyd).2
    refine List.Nodup.append h1 h2 ?_
    intro a ha1 ha2
    have hhy : a.head? = some y := by
      have := (List.perm_insertionSort (fun a b => a ≤ b) _).mem_iff.mp ha1
      have := (List.mem_filter.mp this).2
      simpa using this
    obtain ⟨y2, hy2, ha3⟩ := List.mem_flatMap.mp ha2
    have hhy2 : a.head? = some y2 := by
      have := (List.perm_insertionSort (fun a b => a ≤ b) _).mem_iff.mp ha3
      have := (List.mem_filter.mp this).2
      simpa using this
    have : y = y2 := by
      rw [hhy] at hhy2
      exact Option.some.inj hhy2
    rw [this] at hyd
    exact (List.nodup_cons.mp hyd).1 hy2

theorem scanFold_absorb (f : List String → Option ChronicleRecord) (r : ChronicleRecord) :
    ∀ paths : List (List String), paths.foldl (fun acc p => match acc with
      | some r => some r
      | none => f p) (some r) = some r := by
  intro paths
  induction paths with
  | nil => rfl
  | cons p t ih => simpa using ih

theorem scanFold_cases (f : List String → Option ChronicleRecord) :
    ∀ paths : List (List String), (∀ p ∈ paths, f p = none) ∨
      ∃ r, paths.foldl (fun acc p => match acc with
        | some r => some r
        | none => f p) none = some r ∧ ∃ p ∈ paths, f p = some r := by
  intro paths
  induction paths with
  | nil => left; simp
  | cons p t ih =>
    rcases hfp : f p with _ | r
    · rcases ih with hall | ⟨r, hr, q, hq, hfq⟩
      · left
        intro q hq
        rcases List.mem_cons.mp hq with he | hm
        · rw [he]; exact hfp
        · exact hall q hm
      · right
        refine ⟨r, ?_, q, List.mem_cons_of_mem _ hq, hfq⟩
        rw [List.foldl_cons]
        simpa [hfp] using hr
    · right
      refine ⟨r, ?_, p, List.mem_cons_self p t, hfp⟩
      rw [List.foldl_cons]
      simpa [hfp] using scanFold_absorb f r t

theorem scanFold_none_of_all (f : List String → Option ChronicleRecord) :
    ∀ paths : List (List String), (∀ p ∈ paths, f p = none) →
      paths.foldl (fun acc p => match acc with
        | some r => some r
        | none => f p) none = none := by
  intro paths
  induction paths with
  | nil => intro _; rfl
  | cons p t ih =>
    intro hall
    rw [List.foldl_cons]
    have := hall p (List.mem_cons_self p t)
    simpa [this] using ih (fun q hq => hall q (List.mem_cons_of_mem _ hq))

/-- C8: read_by_id scans each existing partition exactly once in a defined,
terminating order (the visited path list has no duplicate), returns a stored
record carrying the id when one exists, and returns an explicit None (not an
exception) exactly when no stored record carries the id. -/
theorem C8_read_by_id (s : Store) (yearDirs : List String) (oid : String)
    (hWF : storeWF s) (hyd : yearDirs.Nodup)
    (hcov : ∀ p ∈ storeKeys s, ∃ y ∈ yearDirs, p.head? = some y) :
    (iterDbPaths s yearDirs).Nodup ∧
    (∀ r, readById s yearDirs oid = some r → r.object_id = oid ∧ r ∈ allRecords s) ∧
    ((∃ r ∈ allRecords s, r.object_id = oid) →
      ∃ r, readById s yearDirs oid = some r ∧ r.object_id = oid) ∧
    (readById s yearDirs oid = none ↔ ∀ r ∈ allRecords s, r.object_id ≠ oid) := by
  have hsome : ∀ r, readById s yearDirs oid = some r →
      r.object_id = oid ∧ r ∈ allRecords s := by
    intro r hr
    unfold readById at hr
    rcases scanFold_cases (fun p => partitionIdQuery (storeGet s p) oid)
        (iterDbPaths s yearDirs) with hall | ⟨r2, hr2, p, hp, hfp⟩
    · rw [scanFold_none_of_all _ _ hall] at hr
      exact absurd hr (by simp)
    · rw [hr2] at hr
      have hreq : r2 = r := Option.some.inj hr
      subst hreq
      unfold partitionIdQuery at hfp
      have hid : r2.object_id = oid := by
        have := List.find?_some hfp
        simpa using this
      have hmem : r2 ∈ storeGet s p := List.mem_of_find?_eq_some hfp
      refine ⟨hid, ?_⟩
      unfold storeGet at hmem
      rcases hfind : (s.find? (fun e => e.1 = p)) with _ | en
      · rw [hfind] at hmem
        simp at hmem
      · rw [hfind] at hmem
        simp at hmem
        exact mem_allRecords_of_entry (List.mem_of_find?_eq_some hfind) hmem
  have hexists : (∃ r ∈ allRecords s, r.object_id = oid) →
      ∃ r, readById s yearDirs oid = some r ∧ r.object_id = oid := by
    rintro ⟨r, hmem, hid⟩
    obtain ⟨en, hen, hren⟩ := List.mem_flatMap.mp hmem
    have hkey : en.1 ∈ storeKeys s := List.mem_map_of_mem (·.1) hen
    have hvisit : en.1 ∈ iterDbPaths s yearDirs :=
      (iterDbPaths_mem s yearDirs hcov en.1).mpr hkey
    have hget : storeGet s en.1 = en.2 := storeGet_of_mem hWF.1 (by
      rcases en with ⟨p, rows⟩
      exact hen)
    have hquery : partitionIdQuery (storeGet s en.1) oid ≠ none := by
      unfold partitionIdQuery
      rw [hget]
      intro hnone
      rw [List.find?_eq_none] at hnone
      exact hnone r hren (by simp [hid])
    rcases scanFold_cases (fun p => partitionIdQuery (storeGet s p) oid)
        (iterDbPaths s yearDirs) with hall | ⟨r2, hr2, _, _, _⟩
    · exact absurd (hall en.1 hvisit) hquery
    · have hread : readById s yearDirs oid = some r2 := hr2
      exact ⟨r2, hread, (hsome r2 hread).1⟩
  refine ⟨iterDbPaths_nodup s yearDirs hWF.1 hyd, hsome, hexists, ?_⟩
  constructor
  · intro hnone r hmem hid
    obtain ⟨r2, hr2, _⟩ := hexists ⟨r, hmem, hid⟩
    rw [hnone] at hr2
    exact absurd hr2 (by simp)
  · intro hall
    rcases hread : readById s yearDirs oid with _ | r
    · rfl
    · obtain ⟨hid, hmem⟩ := hsome r hread
      exact absurd hid (hall r hmem)

/-- C8 witness: a one-partition store holding one record. -/
theorem C8_witness :
    storeWF [(["1970", "197001.db"], [⟨"a", 0, none, "", none⟩])] ∧
    (∃ r, readById [(["1970", "197001.db"], [⟨"a", 0, none, "", none⟩])] ["1970"] "a" =
      some r ∧ r.object_id = "a") := by
  have hWF : storeWF [(["1970", "197001.db"], [⟨"a", 0, none, "", none⟩])] := by
    constructor
    · decide
    · decide
  refine ⟨hWF, ?_⟩
  exact (C8_read_by_id [(["1970", "197001.db"], [⟨"a", 0, none, "", none⟩])] ["1970"] "a"
    hWF (by decide) (by decide)).2.2.1 ⟨⟨"a", 0, none, "", none⟩, by decide, rfl⟩

/-! ## C2: time-range reads -/

theorem storeHas_iff (s : Store) (p : List String) :
    storeHas s p = true ↔ p ∈ storeKeys s := by
  unfold storeHas storeKeys
  rw [List.any_eq_true]
  constructor
  · rintro ⟨en, hen, he⟩
    have : en.1 = p := by simpa using he
    rw [← this]
    exact List.mem_map_of_mem _ hen
  · intro h
    obtain ⟨en, hen, he⟩ := List.mem_map.mp h
    exact ⟨en, hen, by simpa using he⟩

theorem monthIdx_div12 (t : ℚ) : monthIdxOfTs t / 12 = civilYearOfTs t := by
  have hm := civilMonth_bounds (dayOfTs t)
  unfold monthIdxOfTs monthIdxOfDay civilYearOfTs
  omega

theorem yearString_toNat_inj {y1 y2 : Int} (h : yearString y1 = yearString y2) :
    y1.toNat = y2.toNat := by
  unfold yearString decChars at h
  have hdata : (decDigits y1.toNat).map Nat.digitChar = (decDigits y2.toNat).map Nat.digitChar := by
    have := congrArg String.data h
    simpa using this
  exact decDigits_inj (map_digitChar_inj _ _
    (fun d hd => decDigitsAux_lt _ _ d hd) (fun d hd => decDigitsAux_lt _ _ d hd) hdata)

/-- path injectivity from one-sided positivity of the year. -/
theorem pathOfMonthIdx_inj_pos {k1 k2 : Int} (h1 : 1 ≤ k1 / 12)
    (h : pathOfMonthIdx k1 = pathOfMonthIdx k2) : k1 = k2 := by
  unfold pathOfMonthIdx at h
  simp only [List.cons.injEq, and_true] at h
  have hyn : (k1 / 12).toNat = (k2 / 12).toNat := yearString_toNat_inj h.1
  have hy : k1 / 12 = k2 / 12 := by omega
  have hdata := congrArg String.data h.2
  rw [String.data_append, String.data_append, String.data_append, String.data_append] at hdata
  rw [h.1] at hdata
  rw [List.append_assoc, List.append_assoc] at hdata
  have hcancel := List.append_cancel_left hdata
  have hpad : (pad2String ((k1 % 12).toNat + 1)).data = (pad2String ((k2 % 12).toNat + 1)).data :=
    List.append_cancel_right hcancel
  have hm1 := Int.emod_nonneg k1 (by omega : (12 : Int) ≠ 0)
  have hm1b := Int.emod_lt_of_pos k1 (by omega : (0 : Int) < 12)
  have hm2 := Int.emod_nonneg k2 (by omega : (12 : Int) ≠ 0)
  have hm2b := Int.emod_lt_of_pos k2 (by omega : (0 : Int) < 12)
  have hm : (k1 % 12).toNat + 1 = (k2 % 12).toNat + 1 :=
    pad2String_inj (by omega) (by omega) (congrArg String.mk hpad)
  omega

theorem monthSeq_mem (lo hi k : Int) : k ∈ monthSeq lo hi ↔ lo ≤ k ∧ k ≤ hi := by
  unfold monthSeq
  split
  · simp
    omega
  · rw [List.mem_map]
    constructor
    · rintro ⟨i, hi2, rfl⟩
      rw [List.mem_range] at hi2
      omega
    · intro hk
      refine ⟨(k - lo).toNat, ?_, by omega⟩
      rw [List.mem_range]
      omega

theorem monthSeq_pairwise_lt (lo hi : Int) : (monthSeq lo hi).Pairwise (· < ·) := by
  unfold monthSeq
  split
  · exact List.Pairwise.nil
  · rw [List.pairwise_map]
    have := List.pairwise_lt_range ((hi - lo).toNat + 1)
    exact this.imp (by omega)

theorem mem_storeGet_entry {s : Store} {p : List String} {r : ChronicleRecord}
    (h : r ∈ storeGet s p) : ∃ en ∈ s, en.1 = p ∧ r ∈ en.2 := by
  unfold storeGet at h
  rcases hfind : s.find? (fun e => e.1 = p) with _ | en
  · rw [hfind] at h
    simp at h
  · rw [hfind] at h
    simp at h
    refine ⟨en, List.mem_of_find?_eq_some hfind, ?_, h⟩
    have := List.find?_some hfind
    simpa using this

theorem storeGet_cons_self (en : List String × List ChronicleRecord) (t : Store) :
    storeGet (en :: t) en.1 = en.2 := by
  unfold storeGet
  rw [List.find?_cons_of_pos _ (by simp)]
  rfl

theorem storeGet_cons_ne (en : List String × List ChronicleRecord) (t : Store)
    {p : List String} (h : en.1 ≠ p) : storeGet (en :: t) p = storeGet t p := by
  unfold storeGet
  rw [List.find?_cons_of_neg _ (by simpa using h)]

open List in
theorem flatMap_perm_of_pointwise {α β : Type} (l : List α) (f g : α → List β)
    (h : ∀ x ∈ l, f x ~ g x) : l.flatMap f ~ l.flatMap g := by
  induction l with
  | nil => rfl
  | cons a t ih =>
    rw [List.flatMap_cons, List.flatMap_cons]
    exact (h a (List.mem_cons_self a t)).append
      (ih (fun x hx => h x (List.mem_cons_of_mem _ hx)))

open List in
/-- permuting a flatMap over distinct store keys into a flatMap over the
store itself, given that entries outside the key list contribute nothing. -/
theorem storeFlatMap_perm (g : List ChronicleRecord → List ChronicleRecord)
    (_hg : g [] = []) :
    ∀ (s : Store) (ps : List (List String)), (storeKeys s).Nodup → ps.Nodup →
      (∀ p ∈ ps, p ∈ storeKeys s) →
      (∀ en ∈ s, en.1 ∈ ps ∨ g en.2 = []) →
      ps.flatMap (fun p => g (storeGet s p)) ~ s.flatMap (fun en => g en.2) := by
  intro s
  induction s with
  | nil =>
    intro ps _ _ hsub _
    have hnil : ps = [] := by
      cases ps with
      | nil => rfl
      | cons p t => exact absurd (hsub p (List.mem_cons_self p t)) (by simp [storeKeys])
    rw [hnil]
    rfl
  | cons en t ih =>
    intro ps hnd hpsnd hsub hcov
    have hnd' : (en.1 :: storeKeys t).Nodup := hnd
    have hk1 := (List.nodup_cons.mp hnd').1
    by_cases hmem : en.1 ∈ ps
    · obtain ⟨l1, l2, rfl⟩ := List.append_of_mem hmem
      have hl1 : en.1 ∉ l1 := by
        intro hc
        have := List.nodup_append.mp hpsnd
        exact this.2.2 hc (List.mem_cons_self _ _)
      have hl2 : en.1 ∉ l2 := by
        have := (List.nodup_append.mp hpsnd).2.1
        exact (List.nodup_cons.mp this).1
      have hget : ∀ p ∈ l1 ++ l2, storeGet (en :: t) p = storeGet t p := by
        intro p hp
        refine storeGet_cons_ne en t (fun he => ?_)
        rw [he] at hl1 hl2
        rcases List.mem_append.mp hp with h | h
        · exact hl1 h
        · exact hl2 h
      have hsub' : ∀ p ∈ l1 ++ l2, p ∈ storeKeys t := by
        intro p hp
        have hps : p ∈ l1 ++ en.1 :: l2 := by
          rcases List.mem_append.mp hp with h | h
          · exact List.mem_append.mpr (Or.inl h)
          · exact List.mem_append.mpr (Or.inr (List.mem_cons_of_mem _ h))
        rcases List.mem_cons.mp (hsub p hps) with he | hm
        · exfalso
          have he2 : p = en.1 := he
          rw [he2] at hp
          rcases List.mem_append.mp hp with h | h
          · exact hl1 h
          · exact hl2 h
        · exact hm
      have hcov' : ∀ en2 ∈ t, en2.1 ∈ l1 ++ l2 ∨ g en2.2 = [] := by
        intro en2 hen2
        rcases hcov en2 (List.mem_cons_of_mem _ hen2) with hin | hnil
        · left
          have hne : en2.1 ≠ en.1 := by
            intro he
            apply hk1
            rw [← he]
            exact List.mem_map_of_mem (fun x => x.1) hen2
          rcases List.mem_append.mp hin with h | h
          · exact List.mem_append.mpr (Or.inl h)
          · rcases List.mem_cons.mp h with he | hm
            · exact absurd he hne
            · exact List.mem_append.mpr (Or.inr hm)
        · right
          exact hnil
      have hpsnd' : (l1 ++ l2).Nodup := by
        have := List.nodup_append.mp hpsnd
        exact List.nodup_append.mpr ⟨this.1, (List.nodup_cons.mp this.2.1).2,
          fun a ha hb => this.2.2 ha (List.mem_cons_of_mem _ hb)⟩
      have hih := ih (l1 ++ l2) (List.nodup_cons.mp hnd').2 hpsnd' hsub' hcov'
      have hstep1 : (l1 ++ en.1 :: l2).flatMap (fun p => g (storeGet (en :: t) p)) =
          l1.flatMap (fun p => g (storeGet (en :: t) p)) ++
            (g en.2 ++ l2.flatMap (fun p => g (storeGet (en :: t) p))) := by
        rw [List.flatMap_append, List.flatMap_cons, storeGet_cons_self]
      have hperm1 : l1.flatMap (fun p => g (storeGet (en :: t) p)) ~
          l1.flatMap (fun p => g (storeGet t p)) :=
        flatMap_perm_of_pointwise _ _ _ (fun p hp => by
          rw [hget p (List.mem_append.mpr (Or.inl hp))])
      have hperm2 : l2.flatMap (fun p => g (storeGet (en :: t) p)) ~
          l2.flatMap (fun p => g (storeGet t p)) :=
        flatMap_perm_of_pointwise _ _ _ (fun p hp => by
          rw [hget p (List.mem_append.mpr (Or.inr hp))])
      have hswap : ∀ A B C : List ChronicleRecord, A ++ (B ++ C) ~ B ++ (A ++ C) := by
        intro A B C
        calc A ++ (B ++ C) = (A ++ B) ++ C := (List.append_assoc A B C).symm
          _ ~ (B ++ A) ++ C := (List.perm_append_comm).append_right C
          _ = B ++ (A ++ C) := List.append_assoc B A C
      rw [hstep1, List.flatMap_cons]
      calc l1.flatMap (fun p => g (storeGet (en :: t) p)) ++
            (g en.2 ++ l2.flatMap (fun p => g (storeGet (en :: t) p)))
          ~ l1.flatMap (fun p => g (storeGet t p)) ++
            (g en.2 ++ l2.flatMap (fun p => g (storeGet t p))) :=
            hperm1.append ((Perm.refl _).append hperm2)
        _ ~ g en.2 ++ (l1.flatMap (fun p => g (storeGet t p)) ++
            l2.flatMap (fun p => g (storeGet t p))) := hswap _ _ _
        _ = g en.2 ++ (l1 ++ l2).flatMap (fun p => g (storeGet t p)) := by
            rw [List.flatMap_append]
        _ ~ g en.2 ++ t.flatMap (fun en => g en.2) := (hih.append_left _)
    · have hg0 : g en.2 = [] := by
        rcases hcov en (List.mem_cons_self en t) with h | h
        · exact absurd h hmem
        · exact h
      have hget : ∀ p ∈ ps, storeGet (en :: t) p = storeGet t p := by
        intro p hp
        refine storeGet_cons_ne en t (fun he => ?_)
        rw [he] at hmem
        exact hmem hp
      have hsub' : ∀ p ∈ ps, p ∈ storeKeys t := by
        intro p hp
        rcases List.mem_cons.mp (hsub p hp) with he | hm
        · exfalso
          have he2 : p = en.1 := he
          rw [he2] at hp
          exact hmem hp
        · exact hm
      have hcov' : ∀ en2 ∈ t, en2.1 ∈ ps ∨ g en2.2 = [] := fun en2 hen2 =>
        hcov en2 (List.mem_cons_of_mem _ hen2)
      have hih := ih ps (List.nodup_cons.mp hnd').2 hpsnd hsub' hcov'
      calc ps.flatMap (fun p => g (storeGet (en :: t) p))
          ~ ps.flatMap (fun p => g (storeGet t p)) :=
            flatMap_perm_of_pointwise _ _ _ (fun p hp => by rw [hget p hp])
        _ ~ t.flatMap (fun en => g en.2) := hih
        _ = (en :: t).flatMap (fun en => g en.2) := by
            rw [List.flatMap_cons, hg0, List.nil_append]

/-- C2: for start <= end, on a well-formed store (distinct partition keys,
every row filed under the month db path of its own timestamp) whose query
start falls in a positive year, `read_by_time_range(start, end)` consults
exactly the existing month partitions whose calendar month is attained by
some timestamp in [start, end]; it returns exactly (a permutation check) the
stored records whose timestamp lies in the closed interval; and the returned
list is globally sorted ascending by timestamp. -/
theorem C2_time_range_read (s : Store) (startTs endTs : Rat)
    (hse : startTs <= endTs) (hwf : storeWF s)
    (hy : 1 <= civilYearOfTs startTs) :
    (forall p, p ∈ iterDbPathsInRange s startTs endTs ↔
      (p ∈ storeKeys s ∧ exists t : Rat, startTs <= t ∧ t <= endTs ∧ resolveMonthDbPath t = p)) ∧
    (readByTimeRange s startTs endTs).Perm
      ((allRecords s).filter (fun r => startTs <= r.timestamp ∧ r.timestamp <= endTs)) ∧
    (readByTimeRange s startTs endTs).Pairwise
      (fun a b => a.timestamp <= b.timestamp) := by
  have hlo12 : 1 <= monthIdxOfTs startTs / 12 := by
    rw [monthIdx_div12]
    exact hy
  have hky : forall k : Int, monthIdxOfTs startTs <= k -> 1 <= k / 12 := by
    intro k hk
    omega
  have hA : forall p, p ∈ iterDbPathsInRange s startTs endTs ↔
      (p ∈ storeKeys s ∧ exists t : Rat, startTs <= t ∧ t <= endTs ∧
        resolveMonthDbPath t = p) := by
    intro p
    simp only [iterDbPathsInRange, List.mem_filter, List.mem_map, storeHas_iff, monthSeq_mem]
    constructor
    · rintro ⟨⟨k, ⟨hk1, hk2⟩, rfl⟩, hkey⟩
      refine ⟨hkey, ?_⟩
      obtain ⟨t, ht1, ht2, ht3⟩ := monthIdxOfTs_ivp hse hk1 hk2
      exact ⟨t, ht1, ht2, by rw [resolveMonthDbPath_eq, ht3]⟩
    · rintro ⟨hkey, t, ht1, ht2, rfl⟩
      exact ⟨⟨monthIdxOfTs t, ⟨monthIdxOfTs_mono ht1, monthIdxOfTs_mono ht2⟩,
        (resolveMonthDbPath_eq t).symm⟩, hkey⟩
  have hnd : (iterDbPathsInRange s startTs endTs).Nodup := by
    unfold iterDbPathsInRange
    refine List.Nodup.filter _ (List.Nodup.map_on ?_ ?_)
    · intro x hx y _hy hxy
      rw [monthSeq_mem] at hx
      exact pathOfMonthIdx_inj_pos (hky x hx.1) hxy
    · exact (monthSeq_pairwise_lt _ _).imp (fun h => ne_of_lt h)
  have hsub : ∀ p ∈ iterDbPathsInRange s startTs endTs, p ∈ storeKeys s := by
    intro p hp
    simp only [iterDbPathsInRange, List.mem_filter, storeHas_iff] at hp
    exact hp.2
  have hcov : ∀ en ∈ s, en.1 ∈ iterDbPathsInRange s startTs endTs ∨
      en.2.filter (fun r => startTs <= r.timestamp ∧ r.timestamp <= endTs) = [] := by
    intro en hen
    rcases hfe : en.2.filter (fun r => startTs <= r.timestamp ∧ r.timestamp <= endTs) with
      _ | ⟨r, rest⟩
    · right
      exact hfe
    · left
      have hrmem : r ∈ en.2.filter
          (fun r => startTs <= r.timestamp ∧ r.timestamp <= endTs) := by
        rw [hfe]
        exact List.mem_cons_self _ _
      rw [List.mem_filter] at hrmem
      have hrq : startTs <= r.timestamp ∧ r.timestamp <= endTs := by
        simpa using hrmem.2
      have hkey : en.1 = resolveMonthDbPath r.timestamp := hwf.2 en hen r hrmem.1
      rw [hA en.1]
      exact ⟨List.mem_map_of_mem _ hen, r.timestamp, hrq.1, hrq.2, hkey.symm⟩
  have hkeypath : forall (k : Int) (x : ChronicleRecord),
      x ∈ partitionRangeQuery (storeGet s (pathOfMonthIdx k)) startTs endTs ->
      pathOfMonthIdx (monthIdxOfTs x.timestamp) = pathOfMonthIdx k := by
    intro k x hx
    unfold partitionRangeQuery at hx
    rw [(List.perm_insertionSort _ _).mem_iff, List.mem_filter] at hx
    obtain ⟨en, hen, hep, hxr⟩ := mem_storeGet_entry hx.1
    have hres := hwf.2 en hen x hxr
    rw [← hep, hres, resolveMonthDbPath_eq]
  refine ⟨hA, ?_, ?_⟩
  · unfold readByTimeRange partitionRangeQuery
    have h1 : ((iterDbPathsInRange s startTs endTs).flatMap (fun p =>
          List.insertionSort (fun a b => a.timestamp <= b.timestamp)
            ((storeGet s p).filter
              (fun r => startTs <= r.timestamp ∧ r.timestamp <= endTs)))).Perm
        ((iterDbPathsInRange s startTs endTs).flatMap (fun p =>
          (storeGet s p).filter
            (fun r => startTs <= r.timestamp ∧ r.timestamp <= endTs))) :=
      flatMap_perm_of_pointwise _ _ _ (fun p _ => List.perm_insertionSort _ _)
    have h2 := storeFlatMap_perm
      (fun rows => rows.filter (fun r => startTs <= r.timestamp ∧ r.timestamp <= endTs))
      rfl s (iterDbPathsInRange s startTs endTs) hwf.1 hnd hsub hcov
    have h3 : (allRecords s).filter
        (fun r => startTs <= r.timestamp ∧ r.timestamp <= endTs) =
        s.flatMap (fun en => en.2.filter
          (fun r => startTs <= r.timestamp ∧ r.timestamp <= endTs)) := by
      unfold allRecords
      rw [List.filter_flatMap]
    rw [h3]
    exact h1.trans h2
  · unfold readByTimeRange
    rw [List.pairwise_flatMap]
    constructor
    · intro p _hp
      unfold partitionRangeQuery
      letI : IsTotal ChronicleRecord (fun a b => a.timestamp <= b.timestamp) :=
        ⟨fun a b => le_total a.timestamp b.timestamp⟩
      letI : IsTrans ChronicleRecord (fun a b => a.timestamp <= b.timestamp) :=
        ⟨fun a b c hab hbc => le_trans hab hbc⟩
      exact List.sorted_insertionSort _ _
    · unfold iterDbPathsInRange
      refine List.Pairwise.filter _ ?_
      rw [List.pairwise_map]
      refine (monthSeq_pairwise_lt _ _).imp_of_mem ?_
      intro k1 k2 hk1 hk2 hlt x hx y hyy
      rw [monthSeq_mem] at hk1 hk2
      have hkx : k1 = monthIdxOfTs x.timestamp :=
        pathOfMonthIdx_inj_pos (hky k1 hk1.1) (hkeypath k1 x hx).symm
      have hkyk : k2 = monthIdxOfTs y.timestamp :=
        pathOfMonthIdx_inj_pos (hky k2 hk2.1) (hkeypath k2 y hyy).symm
      by_contra hc
      push_neg at hc
      have hmono := monthIdxOfTs_mono (le_of_lt hc)
      omega

/-- C2 witness: a single-partition store for January 1970 queried over
[0, 1000000]; the read is a permutation of the in-range records. -/
theorem C2_witness :
    (0 : Rat) <= 1000000 ∧
    storeWF [(["1970", "197001.db"],
      [ChronicleRecord.mk "a" 0 none "" none])] ∧
    1 <= civilYearOfTs 0 ∧
    (readByTimeRange [(["1970", "197001.db"],
        [ChronicleRecord.mk "a" 0 none "" none])] 0 1000000).Perm
      ((allRecords [(["1970", "197001.db"],
          [ChronicleRecord.mk "a" 0 none "" none])]).filter
        (fun r => (0 : Rat) <= r.timestamp ∧ r.timestamp <= 1000000)) :=
  ⟨by decide, ⟨by decide, by decide⟩, by decide,
    (C2_time_range_read [(["1970", "197001.db"],
        [ChronicleRecord.mk "a" 0 none "" none])] 0 1000000
      (by decide) ⟨by decide, by decide⟩ (by decide)).2.1⟩


end ContexGo